import Mathlib

/-!
Verification of the header-chain engine in src/chain.c (hnsd).

The development shallowly embeds the functions of chain.c over explicit
state.  External collaborators that are not part of src/ (the map
container, the header codec and hash, the compact-target codec, the
256-bit big integer, the PoW verifier and the time source) are modelled
from the specification, as noted on each definition.

Conventions:
* 32-byte hashes are modelled as their numeric value (`Nat`); equality of
  the byte arrays is equality of the values.
* The 32-byte big-endian `work` array is modelled by its numeric value;
  where the code compares works with `memcmp`, the model encodes the
  values back to 32 big-endian bytes and compares those byte lists
  lexicographically, exactly as `memcmp` does.
* Machine-integer casts that matter are explicit: `i64ofU64` is the
  `(int64_t)` cast of a `uint64_t`.
* Out-of-memory outcomes of the map-insert calls are driven by an
  explicit `Alloc` oracle, one flag per call site, mirroring the code's
  error handling.  Aborting `assert`s are modelled by `Option`: a `none`
  result of `hsk_chain_add` is an aborted execution.
-/

/-- Association-list model of the hsk_map container (modelled from the
spec: insert, lookup, delete, contains, with overwrite-on-insert;
the container itself lives outside src/).  Keys are hash or height
values as `Nat`. -/
abbrev HMap (α : Type) := List (Nat × α)

/-- Map lookup (hsk_map_get). -/
def mget {α : Type} (m : HMap α) (k : Nat) : Option α :=
  (m.find? (fun p => p.1 == k)).map Prod.snd

/-- Map insert with overwrite (hsk_map_set, successful case). -/
def mset {α : Type} (m : HMap α) (k : Nat) (v : α) : HMap α :=
  (k, v) :: m.filter (fun p => p.1 != k)

/-- Map delete (hsk_map_del). -/
def mdel {α : Type} (m : HMap α) (k : Nat) : HMap α :=
  m.filter (fun p => p.1 != k)

/-- Map membership (hsk_map_has). -/
def mhas {α : Type} (m : HMap α) (k : Nat) : Bool :=
  (mget m k).isSome

/-- The value of a `uint64_t` reinterpreted as `int64_t` (two's
complement). -/
def i64ofU64 (t : Nat) : Int :=
  if t % 2 ^ 64 < 2 ^ 63 then ((t % 2 ^ 64 : Nat) : Int)
  else ((t % 2 ^ 64 : Nat) : Int) - 2 ^ 64

/-- The value of an `int64_t` reinterpreted as `uint64_t`. -/
def u64ofI64 (x : Int) : Nat :=
  (x.emod (2 ^ 64)).toNat

/-- Big-endian byte expansion of a value into `w` bytes (the layout of
the 32-byte `work` and hash arrays). -/
def beBytes : Nat → Nat → List Nat
  | 0, _ => []
  | w + 1, n => n / 256 ^ w :: beBytes w (n % 256 ^ w)

/-- Sign of C `memcmp` on two byte arrays of equal length. -/
def memcmpBytes : List Nat → List Nat → Int
  | a :: as, b :: bs =>
    if a < b then -1 else if b < a then 1 else memcmpBytes as bs
  | _, _ => 0

/-- Insert into an ascending list (helper of the ascending sort that
models qsort with qsort_cmp). -/
def insortAsc (x : Int) : List Int → List Int
  | [] => [x]
  | y :: ys => if x ≤ y then x :: y :: ys else y :: insortAsc x ys

/-- Ascending sort of 64-bit timestamps; models `qsort` with
`qsort_cmp` (which orders int64 values ascending). -/
def sortAsc : List Int → List Int
  | [] => []
  | x :: xs => insortAsc x (sortAsc xs)

/-- Block header as chain.c uses it.  Fields that chain.c never reads
(version, roots, nonce, solution) act only through the cached hash and
the PoW verifier and are abstracted into `hashv` and the `Env`.
`hashv` is the value of the cached 32-byte header hash
(hsk_header_cache / hsk_header_hash, modelled from the spec: a 32-byte
digest cached on the record, copied by clone, unchanged by the
height/work updates).  `work` is the value of the 32-byte big-endian
cumulative-work array. -/
structure Header where
  hashv : Nat
  prevBlock : Nat
  time : Nat
  bits : Nat
  height : Nat
  work : Nat
  deriving DecidableEq, Repr

/-- Return codes of hsk-error.h (not under src/); modelled from the
spec as distinct abstract codes.  `epow c` stands for a non-success
code returned by the opaque cuckoo verifier. -/
inductive HCode where
  | success
  | enomem
  | ebadargs
  | etimetoonew
  | etimetooold
  | eduplicate
  | eduplicateorphan
  | ebaddiffbits
  | epow (c : Nat)
  deriving DecidableEq, Repr

/-- Consensus constants of hsk-constants.h (not under src/); modelled
from the spec as build-time parameters. -/
structure Consts where
  bits : Nat
  limit : Nat
  window : Nat
  timespan : Nat
  minActual : Nat
  maxActual : Nat
  spacing : Nat
  noRetargetting : Bool
  targetReset : Bool
  deriving DecidableEq, Repr

/-- External environment of one hsk_chain_add call: the time source
hsk_now (modelled from the spec: nonnegative seconds since the Unix
epoch) and the opaque PoW verifier hsk_header_verify_pow (modelled from
the spec: returns success or an error code). -/
structure Env where
  now : Nat
  verifyPow : Header → HCode

/-- Allocation oracle: outcome of each fallible map insertion inside
one hsk_chain_add call (hsk_map_set can fail with out-of-memory). -/
structure Alloc where
  cloneOk : Bool
  orphansSetOk : Bool
  prevsSetOk : Bool
  hashesSetOk : Bool
  heightsSetOk : Bool
  deriving DecidableEq, Repr

/-- The oracle of a run in which no allocation fails. -/
def allocAll : Alloc := ⟨true, true, true, true, true⟩

/-- The chain state (hsk_chain_t): height, tip and genesis, and the
four lookup maps. -/
structure Chain where
  height : Nat
  tip : Header
  genesis : Header
  hashes : HMap Header
  heights : HMap Header
  orphans : HMap Header
  prevs : HMap Header
  deriving DecidableEq, Repr

/-- Modelled from the spec: hsk_pow_to_target (compact-target decode,
not under src/).  The high byte is the exponent `e`, the low three
bytes the mantissa `m`; the target is `m * 256^(e-3)` for `e ≥ 3`, else
`m >> (8*(3-e))`; negative (sign-bit) and overflowing encodings are
rejected. -/
def powToTarget (bits : Nat) : Option Nat :=
  let e := bits / 2 ^ 24
  let m := bits % 2 ^ 24
  if m ≥ 0x800000 then none
  else
    let t := if e ≥ 3 then m * 256 ^ (e - 3) else m / 256 ^ (3 - e)
    if t ≥ 2 ^ 256 then none else some t

/-- Byte-scan loop of the compact encoder: number of bytes of `n`
below the width `fuel`. -/
def byteLenAux : Nat → Nat → Nat
  | 0, _ => 0
  | fuel + 1, n => if n = 0 then 0 else byteLenAux fuel (n / 256) + 1

/-- Number of bytes in the 32-byte big-endian representation of `n`
with leading zero bytes stripped (the encoder's input is a 32-byte
array). -/
def byteLen (n : Nat) : Nat := byteLenAux 32 n

/-- Modelled from the spec: hsk_pow_to_bits (compact-target encode, not
under src/).  Strip leading zero bytes, exponent = byte length,
mantissa = top three bytes; if the mantissa's high bit is set, shift it
right by 8 and increment the exponent. -/
def powToBits (t : Nat) : Option Nat :=
  let e := byteLen t
  let m := if e ≥ 3 then t / 256 ^ (e - 3) else t * 256 ^ (3 - e)
  let em := if m ≥ 0x800000 then (e + 1, m / 256) else (e, m)
  if em.1 > 0xff then none else some (em.1 * 2 ^ 24 + em.2)

/-- Modelled from the spec: hsk_header_calc_work (header.c, not under
src/).  `work(h) = work(prev) + 2^256 / (target(h) + 1)` in 256-bit
arithmetic with saturation to `2^256 - 1`; fails (the caller asserts)
when the compact target does not decode. -/
def calcWork (prevWork : Nat) (bits : Nat) : Option Nat :=
  match powToTarget bits with
  | none => none
  | some t => some (min (prevWork + 2 ^ 256 / (t + 1)) (2 ^ 256 - 1))

/-- Timestamp-collection loop of hsk_chain_get_mtp: up to `fuel`
(called with 11) timestamps of `prev`, `prev.prev`, ... reachable
through the hashes map, as `(int64_t)` values. -/
def collectTimes (m : HMap Header) : Option Header → Nat → List Int
  | _, 0 => []
  | none, _ + 1 => []
  | some p, fuel + 1 =>
    i64ofU64 p.time :: collectTimes m (mget m p.prevBlock) fuel

/-- hsk_chain_get_mtp: median of the up-to-11 collected ancestor
timestamps (ascending sort, element at index size/2); 0 for a nil
`prev`. -/
def hsk_chain_get_mtp (m : HMap Header) (prev : Option Header) : Int :=
  match prev with
  | none => 0
  | some p =>
    let ts := collectTimes m (some p) 11
    (sortAsc ts).getD (ts.length / 2) 0

/-- Window-accumulation loop of hsk_chain_retarget: sums the decoded
targets of up to `i` (called with HSK_TARGET_WINDOW) ancestors starting
at `first`, returning the sum and the header cursor left after the
loop; `none` models the aborting assert on a target that does not
decode. -/
def windowSum (m : HMap Header) : Option Header → Nat → Option (Nat × Option Header)
  | first, 0 => some (0, first)
  | none, _ + 1 => some (0, none)
  | some h, i + 1 =>
    match powToTarget h.bits with
    | none => none
    | some t =>
      match windowSum m (mget m h.prevBlock) i with
      | none => none
      | some (s, f) => some (t + s, f)

/-- hsk_chain_retarget: sliding-window difficulty adjustment.  `none`
models an aborting assert (undecodable target, a negative dampened
timespan, or an unencodable result). -/
def hsk_chain_retarget (C : Consts) (m : HMap Header) (prev : Option Header) :
    Option Nat :=
  match prev with
  | none => some C.bits
  | some prevh =>
    match windowSum m (some prevh) C.window with
    | none => none
    | some (sum, firsto) =>
      match firsto with
      | none => some C.bits
      | some first =>
        let avg := sum / C.window
        let start := hsk_chain_get_mtp m (some first)
        let endt := hsk_chain_get_mtp m (some prevh)
        let diff := endt - start
        let actual0 := (C.timespan : Int) + Int.tdiv (diff - (C.timespan : Int)) 4
        if actual0 < 0 then none
        else
          let a1 := if actual0 < (C.minActual : Int) then (C.minActual : Int) else actual0
          let a2 := if a1 > (C.maxActual : Int) then (C.maxActual : Int) else a1
          let n := avg * a2.toNat / C.timespan
          if n > C.limit then some C.bits
          else powToBits n

/-- hsk_chain_get_target: target selection policy.  `time` is the
candidate timestamp as the `int64_t` the code passes. -/
def hsk_chain_get_target (C : Consts) (ch : Chain) (time : Int)
    (prev : Option Header) : Option Nat :=
  match prev with
  | none =>
    if u64ofI64 time = ch.genesis.time % 2 ^ 64 then some C.bits else none
  | some p =>
    if C.noRetargetting then some C.bits
    else if C.targetReset then
      if time > i64ofU64 p.time + (C.spacing : Int) * 2 then some C.bits
      else hsk_chain_retarget C ch.hashes (some p)
    else hsk_chain_retarget C ch.hashes (some p)

/-- k-step ancestor of a header through the hashes map (`none` when a
predecessor is missing). -/
def ancHdr (m : HMap Header) : Header → Nat → Option Header
  | h, 0 => some h
  | h, k + 1 =>
    match mget m h.prevBlock with
    | none => none
    | some p => ancHdr m p k

/-- Branch walk of hsk_chain_reorganize: the headers from `h` down to,
and excluding, the fork (hsk_header_equal compares the cached hashes);
`none` models the aborting assert on a missing predecessor. -/
def walkToFork (m : HMap Header) (f : Header) : Header → Nat → Option (List Header)
  | h, fuel =>
    if h.hashv = f.hashv then some []
    else
      match fuel with
      | 0 => none
      | fuel + 1 =>
        match mget m h.prevBlock with
        | none => none
        | some p => (walkToFork m f p fuel).map (h :: ·)

/-- Inner loop of hsk_chain_find_fork: rewind `longer` while its height
exceeds `forkHt`. -/
def findForkLower (m : HMap Header) (forkHt : Nat) : Header → Nat → Option Header
  | longer, fuel =>
    if longer.height > forkHt then
      match fuel with
      | 0 => none
      | fuel + 1 =>
        match mget m longer.prevBlock with
        | none => none
        | some l => findForkLower m forkHt l fuel
    else some longer

/-- hsk_chain_find_fork: lowest common ancestor search.  `none` models
a missing ancestor (the code returns NULL, which the caller asserts
against) or a diverging loop. -/
def hsk_chain_find_fork (m : HMap Header) : Header → Header → Nat → Option Header
  | _, _, 0 => none
  | fork, longer, fuel + 1 =>
    if fork.hashv = longer.hashv then some fork
    else
      match findForkLower m fork.height longer fuel with
      | none => none
      | some longer' =>
        if fork.hashv = longer'.hashv then some fork
        else
          match mget m fork.prevBlock with
          | none => none
          | some fork' => hsk_chain_find_fork m fork' longer' fuel

/-- hsk_chain_reorganize: find the fork, remove the old branch above it
from the heights map, insert the new branch above it except the
competitor itself (the caller inserts the competitor).  Only the
heights map is written. -/
def hsk_chain_reorganize (ch : Chain) (competitor : Header) : Option Chain :=
  let fuel := ch.tip.height + competitor.height + 2
  match hsk_chain_find_fork ch.hashes ch.tip competitor fuel with
  | none => none
  | some fork =>
    match walkToFork ch.hashes fork ch.tip fuel,
          walkToFork ch.hashes fork competitor fuel with
    | some disconnect, some connect =>
      let hs1 := disconnect.foldl (fun m c => mdel m c.height) ch.heights
      let hs2 := (connect.tail.reverse).foldl
        (fun m c => mset m c.height c) hs1
      some { ch with heights := hs2 }
    | _, _ => none

/-- Loop of hsk_chain_get_locator.  `i` is the number of hashes pushed
so far, `acc` holds them in reverse; `none` models the aborting assert
on a missing heights entry (or fuel exhaustion, which sufficient fuel
rules out since each iteration lowers `height`). -/
def locatorLoop (hts : HMap Header) : Nat → Nat → Nat → Nat → List Nat → Option (List Nat)
  | 0, height, _, _, acc => if height = 0 then some acc.reverse else none
  | fuel + 1, height, step, i, acc =>
    if height = 0 then some acc.reverse
    else
      let h1 := height - step
      let step' := if i > 10 then step * 2 else step
      let h2 := if i = 64 - 1 then 0 else h1
      match mget hts h2 with
      | none => none
      | some hdr => locatorLoop hts fuel h2 step' (i + 1) (hdr.hashv :: acc)

/-- hsk_chain_get_locator: up to 64 hashes walking back from the tip
with exponentially growing step. -/
def hsk_chain_get_locator (ch : Chain) : Option (List Nat) :=
  locatorLoop ch.heights (ch.height + 1) ch.height 1 1 [ch.tip.hashv]

/-- hsk_chain_init followed by hsk_chain_init_genesis, with the decoded
genesis header (HSK_GENESIS and its decoding live outside src/) passed
as `g`: empty maps, genesis installed into hashes and heights, tip and
height taken from it. -/
def hsk_chain_init (g : Header) : Chain :=
  { height := g.height
    tip := g
    genesis := g
    hashes := mset [] g.hashv g
    heights := mset [] g.height g
    orphans := []
    prevs := [] }

/-- hsk_chain_add.  Returns `none` for an aborted execution (a failed
assert), otherwise the return code and the new state. -/
def hsk_chain_add (C : Consts) (env : Env) (al : Alloc) (ch : Chain) (h : Header) :
    Option (HCode × Chain) :=
  if al.cloneOk = false then some (.enomem, ch)
  else if h.time > env.now + 2 * 60 * 60 then some (.etimetoonew, ch)
  else if mhas ch.hashes h.hashv then some (.eduplicate, ch)
  else if mhas ch.orphans h.hashv then some (.eduplicateorphan, ch)
  else if env.verifyPow h ≠ .success then some (env.verifyPow h, ch)
  else
    match mget ch.hashes h.prevBlock with
    | none =>
      if al.orphansSetOk = false then some (.enomem, ch)
      else if al.prevsSetOk = false then
        some (.enomem, { ch with orphans := mdel (mset ch.orphans h.hashv h) h.hashv })
      else
        some (.success, { ch with
          orphans := mset ch.orphans h.hashv h
          prevs := mset ch.prevs h.prevBlock h })
    | some prev =>
      if i64ofU64 h.time ≤ hsk_chain_get_mtp ch.hashes (some prev) then
        some (.etimetooold, ch)
      else
        match hsk_chain_get_target C ch (i64ofU64 h.time) (some prev) with
        | none => none
        | some bits =>
          if h.bits ≠ bits then some (.ebaddiffbits, ch)
          else
            match calcWork prev.work h.bits with
            | none => none
            | some w =>
              if memcmpBytes (beBytes 32 w) (beBytes 32 ch.tip.work) ≤ 0 then
                if al.hashesSetOk = false then some (.enomem, ch)
                else
                  some (.success, { ch with hashes := mset ch.hashes h.hashv ({ h with height := prev.height + 1, work := w }) })
              else
                match (if h.prevBlock ≠ ch.tip.hashv
                       then hsk_chain_reorganize ch ({ h with height := prev.height + 1, work := w })
                       else some ch) with
                | none => none
                | some ch1 =>
                  if al.hashesSetOk = false then some (.enomem, ch1)
                  else if al.heightsSetOk = false then
                    some (.enomem, { ch1 with hashes := mdel (mset ch1.hashes h.hashv ({ h with height := prev.height + 1, work := w })) h.hashv })
                  else
                    some (.success, { ch1 with
                      hashes := mset ch1.hashes h.hashv ({ h with height := prev.height + 1, work := w })
                      heights := mset ch1.heights (prev.height + 1) ({ h with height := prev.height + 1, work := w })
                      height := prev.height + 1
                      tip := ({ h with height := prev.height + 1, work := w }) })

/-- List of up to `k` ancestors starting at `h` itself (`h`, `h.prev`,
...), truncated where a predecessor is missing. -/
def ancList (m : HMap Header) : Option Header → Nat → List Header
  | _, 0 => []
  | none, _ + 1 => []
  | some h, k + 1 => h :: ancList m (mget m h.prevBlock) k

/-- Cursor after walking `k` predecessor steps from `h` (position of
the window loop's cursor after `k` iterations). -/
def ancOpt (m : HMap Header) : Option Header → Nat → Option Header
  | f, 0 => f
  | none, _ + 1 => none
  | some h, k + 1 => ancOpt m (mget m h.prevBlock) k

/-- Sum of the decoded compact targets of a list of headers; `none`
when one does not decode. -/
def sumTargets : List Header → Option Nat
  | [] => some 0
  | h :: hs =>
    match powToTarget h.bits, sumTargets hs with
    | some t, some s => some (t + s)
    | _, _ => none

/-- The retarget rule exactly as claim C4 words it: walk back up to W
ancestors starting at prev summing their decoded targets; if fewer than
W ancestors exist return the default bits; otherwise N = (S / W) ·
actual / T with diff = MTP(prev) − MTP(first window ancestor), actual
dampened and clamped, and the default bits when N exceeds the limit. -/
def retargetClaim (C : Consts) (m : HMap Header) (prev : Option Header) :
    Option Nat :=
  match prev with
  | none => some C.bits
  | some p =>
    let ancs := ancList m (some p) C.window
    if ancs.length < C.window then some C.bits
    else
      match sumTargets ancs with
      | none => none
      | some sum =>
        let avg := sum / C.window
        let start := hsk_chain_get_mtp m (ancs.getLast?)
        let endt := hsk_chain_get_mtp m (some p)
        let diff := endt - start
        let actual0 := (C.timespan : Int) + Int.tdiv (diff - (C.timespan : Int)) 4
        if actual0 < 0 then none
        else
          let a1 := if actual0 < (C.minActual : Int) then (C.minActual : Int) else actual0
          let a2 := if a1 > (C.maxActual : Int) then (C.maxActual : Int) else a1
          let n := avg * a2.toNat / C.timespan
          if n > C.limit then some C.bits
          else powToBits n

/-- The retarget rule as amended: the walk must find the window plus
one further ancestor (W+1 headers ending at the one just below the
window); with fewer, the default bits are returned after the available
targets are decoded; the timespan runs from the MTP of that (W+1)-th
header to the MTP of prev. -/
def retargetAmended (C : Consts) (m : HMap Header) (prev : Option Header) :
    Option Nat :=
  match prev with
  | none => some C.bits
  | some p =>
    match sumTargets (ancList m (some p) C.window) with
    | none => none
    | some sum =>
      match ancOpt m (some p) C.window with
      | none => some C.bits
      | some firstW =>
        let avg := sum / C.window
        let start := hsk_chain_get_mtp m (some firstW)
        let endt := hsk_chain_get_mtp m (some p)
        let diff := endt - start
        let actual0 := (C.timespan : Int) + Int.tdiv (diff - (C.timespan : Int)) 4
        if actual0 < 0 then none
        else
          let a1 := if actual0 < (C.minActual : Int) then (C.minActual : Int) else actual0
          let a2 := if a1 > (C.maxActual : Int) then (C.maxActual : Int) else a1
          let n := avg * a2.toNat / C.timespan
          if n > C.limit then some C.bits
          else powToBits n

/-- Chain states reachable by init and subsequent add calls in runs
without allocation failure (the spec treats out-of-memory as fatal to
the process).  The genesis parameter is the decoded HSK_GENESIS header:
height 0 and a 32-byte work array (modelled from the spec). -/
inductive Reachable (C : Consts) : Chain → Prop where
  | init : ∀ g : Header, g.height = 0 → g.work < 2 ^ 256 →
      Reachable C (hsk_chain_init g)
  | step : ∀ (ch : Chain) (env : Env) (h : Header) (rc : HCode) (ch' : Chain),
      Reachable C ch → hsk_chain_add C env allocAll ch h = some (rc, ch') →
      Reachable C ch'

/-- State invariant of the chain (the heights-map and index coherence
facts that hold in every reachable state). -/
structure ChainInv (ch : Chain) : Prop where
  dom : ∀ n, (mget ch.heights n).isSome ↔ n ≤ ch.height
  hts : ∀ n hd, mget ch.heights n = some hd → hd.height = n
  h0 : mget ch.heights 0 = some ch.genesis
  htip : mget ch.heights ch.height = some ch.tip
  tipht : ch.tip.height = ch.height
  keyv : ∀ k hd, mget ch.hashes k = some hd → hd.hashv = k
  gmem : mget ch.hashes ch.genesis.hashv = some ch.genesis
  gh0 : ch.genesis.height = 0
  zeroGen : ∀ k hd, mget ch.hashes k = some hd → hd.height = 0 → hd = ch.genesis
  parent : ∀ k hd, mget ch.hashes k = some hd → 1 ≤ hd.height →
    ∃ pd, mget ch.hashes hd.prevBlock = some pd ∧ pd.height + 1 = hd.height
  htsMem : ∀ n hd, mget ch.heights n = some hd → mget ch.hashes hd.hashv = some hd
  link : ∀ n hd pd, mget ch.heights (n + 1) = some hd → mget ch.heights n = some pd →
    hd.prevBlock = pd.hashv
  tipw : ch.tip.work < 2 ^ 256

/-- Build constants of the concrete test network used by the witness
runs: retargeting disabled, so every header carries the default bits. -/
def Wc : Consts := ⟨0x207fffff, 2 ^ 256 - 1, 2, 4, 1, 1000000, 10, true, false⟩

/-- Environment of the witness runs: a fixed clock, a PoW verifier that
accepts. -/
def Ec : Env := ⟨1000000, fun _ => .success⟩

/-- Genesis header of the witness runs (fields: hash 1, prev 0, time
1000, default bits, height 0, work 2). -/
def g0w : Header := ⟨1, 0, 1000, 0x207fffff, 0, 2⟩

/-- Initial chain of the witness runs. -/
def wch0 : Chain := hsk_chain_init g0w

/-- Main-chain header at height 1 of the witness runs. -/
def h1w : Header := ⟨2, 1, 2000, 0x207fffff, 0, 0⟩

/-- Main-chain header at height 2 of the witness runs. -/
def h2w : Header := ⟨3, 2, 3000, 0x207fffff, 0, 0⟩

/-- Competing branch header at height 1 (forks at genesis). -/
def a1w : Header := ⟨10, 1, 2100, 0x207fffff, 0, 0⟩

/-- Competing branch header at height 2. -/
def a2w : Header := ⟨11, 10, 2200, 0x207fffff, 0, 0⟩

/-- Competing branch header at height 3: adding it triggers the
reorganization in the witness run. -/
def a3w : Header := ⟨12, 11, 2300, 0x207fffff, 0, 0⟩

/-- Orphan header of the witness runs (parent 99 unknown). -/
def o1w : Header := ⟨20, 99, 2500, 0x207fffff, 0, 0⟩

/-- One witness step: the state after an add call (the call itself is
proved separately to succeed). -/
def stepChain (ch : Chain) (h : Header) : Chain :=
  match hsk_chain_add Wc Ec allocAll ch h with
  | some (_, c) => c
  | none => ch

/-- Witness chain: genesis plus h1w. -/
def wch1 : Chain := stepChain wch0 h1w

/-- Witness chain: main chain of height 2. -/
def wch2 : Chain := stepChain wch1 h2w

/-- Witness chain: alternate header a1w filed. -/
def wch3 : Chain := stepChain wch2 a1w

/-- Witness chain: alternate header a2w filed (work tie with the tip). -/
def wch4 : Chain := stepChain wch3 a2w

/-- Witness chain: after the reorganization onto a3w. -/
def wch5 : Chain := stepChain wch4 a3w

/-- Build constants for the retarget counterexample: window 2, ideal
timespan 4, limit equal to the target decoded from the default bits. -/
def Cr : Consts := ⟨0x207fffff, 0x7fffff * 2 ^ 232, 2, 4, 1, 1000000, 10, false, false⟩

/-- Second header of the retarget counterexample chain (same timestamp
as genesis, so the dampened timespan is below ideal). -/
def chB : Header := ⟨2, 1, 1000, 0x207fffff, 1, 4⟩

/-- Hashes map of the retarget counterexample: exactly the window
ancestors (2 headers) exist, and no further one. -/
def cmap : HMap Header := [(2, chB), (1, g0w)]

/-! Map lemmas. -/

theorem mget_cons {α : Type} (p : Nat × α) (m : HMap α) (k : Nat) :
    mget (p :: m) k = if p.1 = k then some p.2 else mget m k := by
  by_cases h : p.1 = k <;> simp [mget, List.find?_cons, h]

theorem mdel_cons_eq {α : Type} (p : Nat × α) (m : HMap α) (k : Nat)
    (h : p.1 = k) : mdel (p :: m) k = mdel m k := by
  simp [mdel, List.filter_cons, h]

theorem mdel_cons_ne {α : Type} (p : Nat × α) (m : HMap α) (k : Nat)
    (h : p.1 ≠ k) : mdel (p :: m) k = p :: mdel m k := by
  simp [mdel, List.filter_cons, h]

theorem mget_mset_self {α : Type} (m : HMap α) (k : Nat) (v : α) :
    mget (mset m k v) k = some v := by
  simp [mset, mget_cons]

theorem mget_mdel_ne {α : Type} (m : HMap α) (k k' : Nat) (h : k' ≠ k) :
    mget (mdel m k) k' = mget m k' := by
  induction m with
  | nil => rfl
  | cons p m ih =>
    rw [mget_cons]
    by_cases hp : p.1 = k
    · have hpk : p.1 ≠ k' := by rw [hp]; exact fun hh => h hh.symm
      rw [mdel_cons_eq p m k hp, ih, if_neg hpk]
    · rw [mdel_cons_ne p m k hp, mget_cons, ih]

theorem mget_mdel_self {α : Type} (m : HMap α) (k : Nat) :
    mget (mdel m k) k = none := by
  induction m with
  | nil => rfl
  | cons p m ih =>
    by_cases hp : p.1 = k
    · rw [mdel_cons_eq p m k hp]; exact ih
    · rw [mdel_cons_ne p m k hp, mget_cons, if_neg hp]; exact ih

theorem mset_eq_cons_mdel {α : Type} (m : HMap α) (k : Nat) (v : α) :
    mset m k v = (k, v) :: mdel m k := rfl

theorem mget_mset_ne {α : Type} (m : HMap α) (k : Nat) (v : α) (k' : Nat)
    (h : k' ≠ k) : mget (mset m k v) k' = mget m k' := by
  rw [mset_eq_cons_mdel, mget_cons, if_neg (fun hh => h hh.symm),
    mget_mdel_ne m k k' h]

theorem mdel_eq_of_mget_none {α : Type} (m : HMap α) (k : Nat)
    (h : mget m k = none) : mdel m k = m := by
  induction m with
  | nil => rfl
  | cons p m ih =>
    rw [mget_cons] at h
    by_cases hp : p.1 = k
    · rw [if_pos hp] at h; exact absurd h (by simp)
    · rw [if_neg hp] at h
      rw [mdel_cons_ne p m k hp, ih h]

theorem mget_mset_cases {α : Type} (m : HMap α) (k : Nat) (v : α) (k' : Nat) :
    mget (mset m k v) k' = if k = k' then some v else mget m k' := by
  by_cases h : k = k'
  · subst h; simp [mget_mset_self]
  · simp [h, mget_mset_ne m k v k' (fun hh => h hh.symm)]

theorem mhas_false_iff {α : Type} (m : HMap α) (k : Nat) :
    mhas m k = false ↔ mget m k = none := by
  simp [mhas, Option.isSome]
  cases mget m k <;> simp

/-! memcmp and big-endian byte lemmas. -/

theorem memcmpBytes_flip (x y : List Nat) :
    memcmpBytes y x = -memcmpBytes x y := by
  induction x generalizing y with
  | nil => cases y <;> simp [memcmpBytes]
  | cons a as ih =>
    cases y with
    | nil => simp [memcmpBytes]
    | cons b bs =>
      by_cases h1 : a < b
      · have h2 : ¬ b < a := by omega
        simp [memcmpBytes, h1, h2]
      · by_cases h2 : b < a
        · simp [memcmpBytes, h1, h2]
        · simp [memcmpBytes, h1, h2, ih]

theorem memcmpBytes_be_le_iff (w a b : Nat) (ha : a < 256 ^ w) (hb : b < 256 ^ w) :
    memcmpBytes (beBytes w a) (beBytes w b) ≤ 0 ↔ a ≤ b := by
  induction w generalizing a b with
  | zero =>
    simp [beBytes, memcmpBytes]
    omega
  | succ w ih =>
    have hpow : 0 < 256 ^ w := Nat.pos_pow_of_pos w (by omega)
    rcases Nat.lt_trichotomy (a / 256 ^ w) (b / 256 ^ w) with h1 | h1 | h1
    · have hab : a < b := by
        rcases Nat.lt_or_ge a b with hx | hx
        · exact hx
        · have h3 : b / 256 ^ w ≤ a / 256 ^ w := Nat.div_le_div_right hx
          omega
      have h2 : ¬ b / 256 ^ w < a / 256 ^ w := by omega
      simp [beBytes, memcmpBytes, h1, h2]
      omega
    · have hda := Nat.div_add_mod a (256 ^ w)
      have hdb := Nat.div_add_mod b (256 ^ w)
      rw [h1] at hda
      have hma : a % 256 ^ w < 256 ^ w := Nat.mod_lt _ hpow
      have hmb : b % 256 ^ w < 256 ^ w := Nat.mod_lt _ hpow
      have hlt : ¬ a / 256 ^ w < b / 256 ^ w := by omega
      have hgt : ¬ b / 256 ^ w < a / 256 ^ w := by omega
      have hrec := ih (a % 256 ^ w) (b % 256 ^ w) hma hmb
      simp [beBytes, memcmpBytes, hlt, hgt, hrec]
      omega
    · have hab : b < a := by
        rcases Nat.lt_or_ge b a with hx | hx
        · exact hx
        · have h3 : a / 256 ^ w ≤ b / 256 ^ w := Nat.div_le_div_right hx
          omega
      have h2 : ¬ a / 256 ^ w < b / 256 ^ w := by omega
      simp [beBytes, memcmpBytes, h1, h2]
      omega

theorem memcmpBytes_self (x : List Nat) : memcmpBytes x x = 0 := by
  induction x with
  | nil => simp [memcmpBytes]
  | cons a as ih => simp [memcmpBytes, ih]

theorem mdel_mset_self {α : Type} (m : HMap α) (k : Nat) (v : α) :
    mdel (mset m k v) k = mdel m k := by
  simp [mset, mdel, List.filter_cons, List.filter_filter]

/-- Field frame of hsk_chain_reorganize: a successful reorganization
returns a state differing at most in the heights map. -/
theorem reorg_skeleton (ch : Chain) (comp : Header) (ch1 : Chain)
    (h : hsk_chain_reorganize ch comp = some ch1) :
    ch1.tip = ch.tip ∧ ch1.genesis = ch.genesis ∧ ch1.height = ch.height ∧
    ch1.hashes = ch.hashes ∧ ch1.orphans = ch.orphans ∧ ch1.prevs = ch.prevs := by
  rw [hsk_chain_reorganize] at h
  repeat' split at h
  all_goals simp_all
  all_goals (cases h; simp)

/-- Claim C8: add rejects a header with ETIMETOONEW, leaving the state
unchanged, exactly when its time exceeds now() plus two hours (7200
seconds); time equal to now() + 7200 passes the check. -/
theorem claim_C8_time_too_new (C : Consts) (env : Env) (al : Alloc) (ch : Chain)
    (h : Header) (hclone : al.cloneOk = true)
    (hpow : env.verifyPow h ≠ .etimetoonew) :
    hsk_chain_add C env al ch h = some (.etimetoonew, ch) ↔
      h.time > env.now + 2 * 60 * 60 := by
  constructor
  · intro he
    by_contra ht
    rw [hsk_chain_add] at he
    rw [hclone] at he
    simp only [Bool.true_eq_false, if_false] at he
    rw [if_neg ht] at he
    repeat' split at he
    all_goals simp_all
  · intro ht
    rw [hsk_chain_add, hclone]
    simp only [Bool.true_eq_false, if_false]
    rw [if_pos ht]

/-- Witness for claim C8: on the concrete chain a header one second
past the bound is rejected with the state unchanged. -/
theorem claim_C8_witness :
    hsk_chain_add Wc Ec allocAll wch0 ⟨5, 1, 1007201, 0x207fffff, 0, 0⟩ =
      some (.etimetoonew, wch0) :=
  (claim_C8_time_too_new Wc Ec allocAll wch0 ⟨5, 1, 1007201, 0x207fffff, 0, 0⟩
    rfl (by decide)).mpr (by decide)

/-- Claim C9: a header whose prev_block is unknown and which passes the
time, duplicate and PoW checks is filed as an orphan: SUCCESS is
returned, the clone is stored in orphans under its hash and in prevs
under its prev_block (overwriting any previous entry for that parent),
and tip, height, hashes and heights are unchanged. -/
theorem claim_C9_orphan_store (C : Consts) (env : Env) (al : Alloc) (ch : Chain)
    (h : Header)
    (hclone : al.cloneOk = true) (ho : al.orphansSetOk = true)
    (hp : al.prevsSetOk = true)
    (ht : ¬ h.time > env.now + 2 * 60 * 60)
    (hd1 : mget ch.hashes h.hashv = none)
    (hd2 : mget ch.orphans h.hashv = none)
    (hpw : env.verifyPow h = .success)
    (hprev : mget ch.hashes h.prevBlock = none) :
    hsk_chain_add C env al ch h =
      some (.success, { ch with orphans := mset ch.orphans h.hashv h,
                                prevs := mset ch.prevs h.prevBlock h }) ∧
    mget (mset ch.prevs h.prevBlock h) h.prevBlock = some h := by
  refine ⟨?_, mget_mset_self ch.prevs h.prevBlock h⟩
  rw [hsk_chain_add, hclone]
  simp only [Bool.true_eq_false, if_false]
  rw [if_neg ht]
  simp [mhas, hd1, hd2, hpw, hprev, ho, hp]

/-- Witness for claim C9: the orphan o1w is filed on the concrete
chain. -/
theorem claim_C9_witness :
    hsk_chain_add Wc Ec allocAll wch1 o1w =
      some (.success, { wch1 with orphans := mset wch1.orphans o1w.hashv o1w,
                                  prevs := mset wch1.prevs o1w.prevBlock o1w }) ∧
    mget (mset wch1.prevs o1w.prevBlock o1w) o1w.prevBlock = some o1w :=
  claim_C9_orphan_store Wc Ec allocAll wch1 o1w rfl rfl rfl (by decide)
    (by decide) (by decide) (by decide) (by decide)

/-- Claim C10: if, while filing an orphan, the orphans insert succeeds
but the prevs insert fails with out-of-memory, add removes the orphans
entry again, returns ENOMEM, and the state is exactly the one before
the call. -/
theorem claim_C10_orphan_oom_rollback (C : Consts) (env : Env) (al : Alloc)
    (ch : Chain) (h : Header)
    (hclone : al.cloneOk = true) (ho : al.orphansSetOk = true)
    (hp : al.prevsSetOk = false)
    (ht : ¬ h.time > env.now + 2 * 60 * 60)
    (hd1 : mget ch.hashes h.hashv = none)
    (hd2 : mget ch.orphans h.hashv = none)
    (hpw : env.verifyPow h = .success)
    (hprev : mget ch.hashes h.prevBlock = none) :
    hsk_chain_add C env al ch h = some (.enomem, ch) := by
  rw [hsk_chain_add, hclone]
  simp only [Bool.true_eq_false, if_false]
  rw [if_neg ht]
  simp [mhas, hd1, hd2, hpw, hprev, ho, hp]
  rw [mdel_mset_self, mdel_eq_of_mget_none ch.orphans h.hashv hd2]

/-- Witness for claim C10: the rollback on the concrete chain restores
exactly the previous state. -/
theorem claim_C10_witness :
    hsk_chain_add Wc Ec ⟨true, true, false, true, true⟩ wch1 o1w =
      some (.enomem, wch1) :=
  claim_C10_orphan_oom_rollback Wc Ec ⟨true, true, false, true, true⟩ wch1 o1w
    rfl rfl rfl (by decide) (by decide) (by decide) (by decide) (by decide)

/-- Claim C7: re-adding a header right after a successful add that
placed it in hashes returns EDUPLICATE and leaves the state (tip,
height and all four maps) unchanged. -/
theorem claim_C7_duplicate_readd (C : Consts) (env : Env) (al al' : Alloc)
    (ch : Chain) (h : Header) (rc : HCode) (ch' : Chain)
    (hclone : al'.cloneOk = true)
    (h1 : hsk_chain_add C env al ch h = some (rc, ch'))
    (hrc : rc = .success)
    (hmem : (mget ch'.hashes h.hashv).isSome) :
    hsk_chain_add C env al' ch' h = some (.eduplicate, ch') := by
  subst hrc
  have ht : ¬ h.time > env.now + 2 * 60 * 60 := by
    intro ht
    rcases Bool.eq_false_or_eq_true al.cloneOk with hc | hc <;>
      (rw [hsk_chain_add, hc] at h1; simp [ht] at h1)
  rw [hsk_chain_add, hclone]
  simp only [Bool.true_eq_false, if_false]
  rw [if_neg ht]
  have hm : mhas ch'.hashes h.hashv = true := by
    simpa [mhas] using hmem
  simp [hm]

/-- Witness for claim C7: re-adding h1w right after its successful add
yields EDUPLICATE with the state unchanged. -/
theorem claim_C7_witness :
    hsk_chain_add Wc Ec allocAll wch1 h1w = some (.eduplicate, wch1) :=
  claim_C7_duplicate_readd Wc Ec allocAll allocAll wch0 h1w .success wch1
    rfl (by decide) rfl (by decide)

/-- Claim C5: with the predecessor found and every earlier check
passed, add rejects with ETIMETOOOLD, leaving the state unchanged,
exactly when the candidate's time (as int64) is at most the median time
past of the predecessor; the MTP of a nil predecessor is 0. -/
theorem claim_C5_time_too_old (C : Consts) (env : Env) (al : Alloc) (ch : Chain)
    (h : Header) (prev : Header)
    (hclone : al.cloneOk = true)
    (ht : ¬ h.time > env.now + 2 * 60 * 60)
    (hd1 : mget ch.hashes h.hashv = none)
    (hd2 : mget ch.orphans h.hashv = none)
    (hpw : env.verifyPow h = .success)
    (hprev : mget ch.hashes h.prevBlock = some prev) :
    (hsk_chain_add C env al ch h = some (.etimetooold, ch) ↔
      i64ofU64 h.time ≤ hsk_chain_get_mtp ch.hashes (some prev)) ∧
    hsk_chain_get_mtp ch.hashes none = 0 := by
  refine ⟨?_, rfl⟩
  constructor
  · intro he
    by_contra hmtp
    rw [hsk_chain_add, hclone] at he
    simp only [Bool.true_eq_false, if_false] at he
    rw [if_neg ht] at he
    simp only [mhas, hd1, hd2, hpw, hprev, Option.isSome_none,
      Bool.false_eq_true, if_false, ne_eq, not_true_eq_false] at he
    rw [if_neg hmtp] at he
    repeat' split at he
    all_goals simp_all
  · intro hmtp
    rw [hsk_chain_add, hclone]
    simp only [Bool.true_eq_false, if_false]
    rw [if_neg ht]
    simp [mhas, hd1, hd2, hpw, hprev, hmtp]

/-- Witness for claim C5: a header timed exactly at the predecessor's
MTP is rejected on the concrete chain with the state unchanged. -/
theorem claim_C5_witness :
    hsk_chain_add Wc Ec allocAll wch1 ⟨7, 2, 2000, 0x207fffff, 0, 0⟩ =
      some (.etimetooold, wch1) :=
  ((claim_C5_time_too_old Wc Ec allocAll wch1 ⟨7, 2, 2000, 0x207fffff, 0, 0⟩
    ⟨2, 1, 2000, 0x207fffff, 1, 4⟩
    rfl (by decide) (by decide) (by decide) (by decide) (by decide)).1).mpr
    (by decide)
/-- Exhaustive description of the outcomes of hsk_chain_add. -/
theorem add_main_cases (C : Consts) (env : Env) (al : Alloc) (ch : Chain) (h : Header)
    (rc : HCode) (ch' : Chain)
    (he : hsk_chain_add C env al ch h = some (rc, ch')) :
    (ch' = ch ∧ rc ≠ .success) ∨
    (rc = .enomem ∧ al.prevsSetOk = false ∧
      ch' = { ch with orphans := mdel (mset ch.orphans h.hashv h) h.hashv }) ∨
    (rc = .success ∧ mget ch.hashes h.hashv = none ∧ mget ch.hashes h.prevBlock = none ∧
      ch' = { ch with orphans := mset ch.orphans h.hashv h, prevs := mset ch.prevs h.prevBlock h }) ∨
    (∃ prev w, mget ch.hashes h.hashv = none ∧ mget ch.hashes h.prevBlock = some prev ∧
      calcWork prev.work h.bits = some w ∧
      memcmpBytes (beBytes 32 w) (beBytes 32 ch.tip.work) ≤ 0 ∧ rc = .success ∧
      ch' = { ch with hashes := mset ch.hashes h.hashv ({ h with height := prev.height + 1, work := w }) }) ∨
    (∃ prev w ch1, mget ch.hashes h.hashv = none ∧ mget ch.hashes h.prevBlock = some prev ∧
      calcWork prev.work h.bits = some w ∧
      ¬ memcmpBytes (beBytes 32 w) (beBytes 32 ch.tip.work) ≤ 0 ∧
      (if h.prevBlock ≠ ch.tip.hashv then hsk_chain_reorganize ch ({ h with height := prev.height + 1, work := w }) else some ch) = some ch1 ∧
      rc = .enomem ∧ (al.hashesSetOk = false ∨ al.heightsSetOk = false) ∧
      (ch' = ch1 ∨ ch' = { ch1 with hashes := mdel (mset ch1.hashes h.hashv ({ h with height := prev.height + 1, work := w })) h.hashv })) ∨
    (∃ prev w ch1, mget ch.hashes h.hashv = none ∧ mget ch.hashes h.prevBlock = some prev ∧
      calcWork prev.work h.bits = some w ∧
      ¬ memcmpBytes (beBytes 32 w) (beBytes 32 ch.tip.work) ≤ 0 ∧
      (if h.prevBlock ≠ ch.tip.hashv then hsk_chain_reorganize ch ({ h with height := prev.height + 1, work := w }) else some ch) = some ch1 ∧
      rc = .success ∧
      ch' = { ch1 with hashes := mset ch1.hashes h.hashv ({ h with height := prev.height + 1, work := w }), heights := mset ch1.heights (prev.height + 1) ({ h with height := prev.height + 1, work := w }), height := prev.height + 1, tip := ({ h with height := prev.height + 1, work := w }) }) := by
  rw [hsk_chain_add] at he
  by_cases h1 : al.cloneOk = false
  · rw [if_pos h1] at he
    simp only [Option.some.injEq, Prod.mk.injEq] at he
    exact Or.inl ⟨he.2.symm, by rw [← he.1]; simp⟩
  · rw [if_neg h1] at he
    by_cases h2 : h.time > env.now + 2 * 60 * 60
    · rw [if_pos h2] at he
      simp only [Option.some.injEq, Prod.mk.injEq] at he
      exact Or.inl ⟨he.2.symm, by rw [← he.1]; simp⟩
    · rw [if_neg h2] at he
      by_cases h3 : mhas ch.hashes h.hashv = true
      · rw [if_pos h3] at he
        simp only [Option.some.injEq, Prod.mk.injEq] at he
        exact Or.inl ⟨he.2.symm, by rw [← he.1]; simp⟩
      · rw [if_neg h3] at he
        have hd1 : mget ch.hashes h.hashv = none := by
          rw [← mhas_false_iff]; exact Bool.eq_false_iff.mpr h3
        by_cases h4 : mhas ch.orphans h.hashv = true
        · rw [if_pos h4] at he
          simp only [Option.some.injEq, Prod.mk.injEq] at he
          exact Or.inl ⟨he.2.symm, by rw [← he.1]; simp⟩
        · rw [if_neg h4] at he
          by_cases h5 : env.verifyPow h = .success
          · rw [if_neg (by simp [h5])] at he
            rcases hprev : mget ch.hashes h.prevBlock with _ | prev
            · simp only [hprev] at he
              by_cases h6 : al.orphansSetOk = false
              · rw [if_pos h6] at he
                simp only [Option.some.injEq, Prod.mk.injEq] at he
                exact Or.inl ⟨he.2.symm, by rw [← he.1]; simp⟩
              · rw [if_neg h6] at he
                by_cases h7 : al.prevsSetOk = false
                · rw [if_pos h7] at he
                  simp only [Option.some.injEq, Prod.mk.injEq] at he
                  exact Or.inr (Or.inl ⟨he.1.symm, h7, he.2.symm⟩)
                · rw [if_neg h7] at he
                  simp only [Option.some.injEq, Prod.mk.injEq] at he
                  exact Or.inr (Or.inr (Or.inl ⟨he.1.symm, hd1, rfl, he.2.symm⟩))
            · simp only [hprev] at he
              by_cases h6 : i64ofU64 h.time ≤ hsk_chain_get_mtp ch.hashes (some prev)
              · rw [if_pos h6] at he
                simp only [Option.some.injEq, Prod.mk.injEq] at he
                exact Or.inl ⟨he.2.symm, by rw [← he.1]; simp⟩
              · rw [if_neg h6] at he
                rcases htg : hsk_chain_get_target C ch (i64ofU64 h.time) (some prev) with _ | bits
                · simp only [htg] at he
                  exact absurd he (by simp)
                · simp only [htg] at he
                  by_cases h7 : h.bits ≠ bits
                  · rw [if_pos h7] at he
                    simp only [Option.some.injEq, Prod.mk.injEq] at he
                    exact Or.inl ⟨he.2.symm, by rw [← he.1]; simp⟩
                  · rw [if_neg h7] at he
                    rcases hcw : calcWork prev.work h.bits with _ | w
                    · simp only [hcw] at he
                      exact absurd he (by simp)
                    · simp only [hcw] at he
                      by_cases h8 : memcmpBytes (beBytes 32 w) (beBytes 32 ch.tip.work) ≤ 0
                      · rw [if_pos h8] at he
                        by_cases h9 : al.hashesSetOk = false
                        · rw [if_pos h9] at he
                          simp only [Option.some.injEq, Prod.mk.injEq] at he
                          exact Or.inl ⟨he.2.symm, by rw [← he.1]; simp⟩
                        · rw [if_neg h9] at he
                          simp only [Option.some.injEq, Prod.mk.injEq] at he
                          exact Or.inr (Or.inr (Or.inr (Or.inl
                            ⟨prev, w, hd1, rfl, hcw, h8, he.1.symm, he.2.symm⟩)))
                      · rw [if_neg h8] at he
                        rcases hre : (if h.prevBlock ≠ ch.tip.hashv then hsk_chain_reorganize ch ({ h with height := prev.height + 1, work := w }) else some ch) with _ | ch1
                        · simp only [hre] at he
                          exact absurd he (by simp)
                        · simp only [hre] at he
                          by_cases h9 : al.hashesSetOk = false
                          · rw [if_pos h9] at he
                            simp only [Option.some.injEq, Prod.mk.injEq] at he
                            exact Or.inr (Or.inr (Or.inr (Or.inr (Or.inl
                              ⟨prev, w, ch1, hd1, rfl, hcw, h8, hre, he.1.symm, Or.inl h9, Or.inl he.2.symm⟩))))
                          · rw [if_neg h9] at he
                            by_cases h10 : al.heightsSetOk = false
                            · rw [if_pos h10] at he
                              simp only [Option.some.injEq, Prod.mk.injEq] at he
                              exact Or.inr (Or.inr (Or.inr (Or.inr (Or.inl
                                ⟨prev, w, ch1, hd1, rfl, hcw, h8, hre, he.1.symm, Or.inr h10, Or.inr he.2.symm⟩))))
                            · rw [if_neg h10] at he
                              simp only [Option.some.injEq, Prod.mk.injEq] at he
                              exact Or.inr (Or.inr (Or.inr (Or.inr (Or.inr
                                ⟨prev, w, ch1, hd1, rfl, hcw, h8, hre, he.1.symm, he.2.symm⟩))))
          · rw [if_pos h5] at he
            simp only [Option.some.injEq, Prod.mk.injEq] at he
            exact Or.inl ⟨he.2.symm, fun hh => h5 (he.1.trans hh)⟩

theorem calcWork_lt (pw b w : Nat) (h : calcWork pw b = some w) : w < 2 ^ 256 := by
  rw [calcWork] at h
  split at h
  · simp at h
  · simp at h
    omega

/-- Frame of the reorganization call site in hsk_chain_add (either a
reorganization happened or the state passed through unchanged). -/
theorem reorgIf_skeleton (ch : Chain) (hdr : Header) (ch1 : Chain) (c : Prop)
    [Decidable c]
    (h : (if c then hsk_chain_reorganize ch hdr else some ch) = some ch1) :
    ch1.tip = ch.tip ∧ ch1.genesis = ch.genesis ∧ ch1.height = ch.height ∧
    ch1.hashes = ch.hashes ∧ ch1.orphans = ch.orphans ∧ ch1.prevs = ch.prevs := by
  split at h
  · exact reorg_skeleton ch hdr ch1 h
  · cases h
    exact ⟨rfl, rfl, rfl, rfl, rfl, rfl⟩

/-- Claim C1: across every completed add call the tip's 32-byte
big-endian cumulative work never decreases (memcmp order, equivalently
the numeric order of the 32-byte values); and a header whose computed
work compares less than or equal to the current tip's work is stored in
hashes on the alternate chain while tip, height and the heights map are
unchanged, so the incumbent keeps the tip on ties. -/
theorem claim_C1_tip_work_monotone (C : Consts) (env : Env) (al : Alloc)
    (ch : Chain) (h : Header) (rc : HCode) (ch' : Chain)
    (he : hsk_chain_add C env al ch h = some (rc, ch')) :
    memcmpBytes (beBytes 32 ch.tip.work) (beBytes 32 ch'.tip.work) ≤ 0 ∧
    (ch.tip.work < 2 ^ 256 → ch.tip.work ≤ ch'.tip.work) ∧
    (∀ prev w, mget ch.hashes h.prevBlock = some prev → rc = .success →
      calcWork prev.work h.bits = some w →
      memcmpBytes (beBytes 32 w) (beBytes 32 ch.tip.work) ≤ 0 →
      ch'.hashes = mset ch.hashes h.hashv ({ h with height := prev.height + 1, work := w }) ∧
      ch'.tip = ch.tip ∧ ch'.height = ch.height ∧ ch'.heights = ch.heights ∧
      ch'.orphans = ch.orphans ∧ ch'.prevs = ch.prevs ∧ ch'.genesis = ch.genesis) := by
  rcases add_main_cases C env al ch h rc ch' he with
    ⟨hA, hAns⟩ | ⟨hrc, hflag, hB⟩ | ⟨hrc, hd1, hpr, hC⟩ |
    ⟨prev, w, hd1, hpr, hcw, hle, hrc, hD⟩ |
    ⟨prev, w, ch1, hd1, hpr, hcw, hgt, hre, hrc, hflag, hE⟩ |
    ⟨prev, w, ch1, hd1, hpr, hcw, hgt, hre, hrc, hF⟩
  · subst hA
    exact ⟨le_of_eq (memcmpBytes_self _), fun _ => le_rfl,
      fun p2 w2 hp2 hr2 _ _ => absurd hr2 hAns⟩
  · subst hB
    refine ⟨le_of_eq (memcmpBytes_self _), fun _ => le_rfl, ?_⟩
    intro p2 w2 hp2 hr2 _ _
    rw [hrc] at hr2
    simp at hr2
  · subst hC
    refine ⟨le_of_eq (memcmpBytes_self _), fun _ => le_rfl, ?_⟩
    intro p2 w2 hp2 hr2 _ _
    rw [hpr] at hp2
    simp at hp2
  · subst hD
    refine ⟨le_of_eq (memcmpBytes_self _), fun _ => le_rfl, ?_⟩
    intro p2 w2 hp2 hr2 hcw2 hm2
    rw [hpr] at hp2
    injection hp2 with hp2e
    subst hp2e
    rw [hcw] at hcw2
    injection hcw2 with hcwe
    subst hcwe
    exact ⟨rfl, rfl, rfl, rfl, rfl, rfl, rfl⟩
  · obtain ⟨htip, -, -, -, -, -⟩ := reorgIf_skeleton ch _ ch1 _ hre
    have htip' : ch'.tip = ch.tip := by
      rcases hE with hE | hE <;> (subst hE; simpa using htip)
    refine ⟨?_, ?_, ?_⟩
    · rw [htip']
      exact le_of_eq (memcmpBytes_self _)
    · rw [htip']
      exact fun _ => le_rfl
    · intro p2 w2 hp2 hr2 _ _
      rw [hrc] at hr2
      simp at hr2
  · obtain ⟨htip, -, -, -, -, -⟩ := reorgIf_skeleton ch _ ch1 _ hre
    have htw : ch'.tip.work = w := by
      subst hF; rfl
    refine ⟨?_, ?_, ?_⟩
    · rw [htw, memcmpBytes_flip]
      omega
    · intro hb
      rw [htw]
      have hwlt := calcWork_lt prev.work h.bits w hcw
      have h256 : (256 : Nat) ^ 32 = 2 ^ 256 := by norm_num
      have hiff := memcmpBytes_be_le_iff 32 w ch.tip.work
        (by rw [h256]; exact hwlt) (by rw [h256]; exact hb)
      omega
    · intro p2 w2 hp2 hr2 hcw2 hm2
      rw [hpr] at hp2
      injection hp2 with hp2e
      subst hp2e
      rw [hcw] at hcw2
      injection hcw2 with hcwe
      subst hcwe
      exact absurd hm2 hgt

/-- Witness for claim C1: the reorganization step of the concrete run
(adding a3w on top of wch4) does not decrease the tip work, in memcmp
order and numerically. -/
theorem claim_C1_witness :
    memcmpBytes (beBytes 32 wch4.tip.work) (beBytes 32 wch5.tip.work) ≤ 0 ∧
    wch4.tip.work ≤ wch5.tip.work := by
  have hc := claim_C1_tip_work_monotone Wc Ec allocAll wch4 a3w .success wch5
    (by decide)
  exact ⟨hc.1, hc.2.1 (by decide)⟩

/-! Ancestor-walk lemmas used by the reorganization proof. -/

theorem ancHdr_succ_back (m : HMap Header) (h : Header) (k : Nat) :
    ancHdr m h (k + 1) = (ancHdr m h k).bind (fun a => mget m a.prevBlock) := by
  induction k generalizing h with
  | zero =>
    have hL : ancHdr m h 1 =
        (match mget m h.prevBlock with
         | none => none
         | some p => ancHdr m p 0) := rfl
    rw [hL]
    cases hp : mget m h.prevBlock <;> simp [hp, ancHdr]
  | succ k ih =>
    have hL : ancHdr m h (k + 2) =
        (match mget m h.prevBlock with
         | none => none
         | some p => ancHdr m p (k + 1)) := rfl
    have hM : ancHdr m h (k + 1) =
        (match mget m h.prevBlock with
         | none => none
         | some p => ancHdr m p k) := rfl
    rw [hL, hM]
    cases hp : mget m h.prevBlock with
    | none => simp
    | some p =>
      simp
      exact ih p

/-- Descent through hashes from a stored header: under the invariant
every entry has a clean ancestor chain with heights decreasing by one,
staying inside hashes. -/
theorem hashes_descend (ch : Chain) (hInv : ChainInv ch) (k0 : Nat) (a0 : Header)
    (h0 : mget ch.hashes k0 = some a0) :
    ∀ k, k ≤ a0.height → ∃ a, ancHdr ch.hashes a0 k = some a ∧
      a.height + k = a0.height ∧ mget ch.hashes a.hashv = some a := by
  intro k
  induction k with
  | zero =>
    intro _
    refine ⟨a0, rfl, by omega, ?_⟩
    rw [hInv.keyv k0 a0 h0]
    exact h0
  | succ k ih =>
    intro hk
    obtain ⟨a, ha, hh, hmem⟩ := ih (by omega)
    obtain ⟨pd, hpd, hph⟩ := hInv.parent a.hashv a hmem (by omega)
    refine ⟨pd, ?_, by omega, ?_⟩
    · rw [ancHdr_succ_back, ha]
      exact hpd
    · rw [hInv.keyv a.prevBlock pd hpd]
      exact hpd

/-- Descent from a candidate header whose predecessor is stored:
ancestors exist down to height zero; all proper ancestors are stored in
hashes. -/
theorem comp_descend (ch : Chain) (hInv : ChainInv ch) (comp p : Header)
    (hp : mget ch.hashes comp.prevBlock = some p)
    (hh : comp.height = p.height + 1) :
    ∀ k, k ≤ comp.height → ∃ a, ancHdr ch.hashes comp k = some a ∧
      a.height + k = comp.height ∧ (1 ≤ k → mget ch.hashes a.hashv = some a) := by
  intro k hk
  cases k with
  | zero => exact ⟨comp, rfl, by omega, by omega⟩
  | succ k =>
    obtain ⟨a, ha, hah, hmem⟩ := hashes_descend ch hInv comp.prevBlock p hp k (by omega)
    refine ⟨a, ?_, by omega, fun _ => hmem⟩
    show (match mget ch.hashes comp.prevBlock with
          | none => none
          | some q => ancHdr ch.hashes q k) = some a
    rw [hp]
    exact ha

/-- The tip's ancestor chain is exactly the heights map. -/
theorem heights_anc (ch : Chain) (hInv : ChainInv ch) :
    ∀ k, k ≤ ch.height →
      ancHdr ch.hashes ch.tip k = mget ch.heights (ch.height - k) := by
  intro k
  induction k with
  | zero =>
    intro _
    show some ch.tip = mget ch.heights ch.height
    exact hInv.htip.symm
  | succ k ih =>
    intro hk
    have hkk : ch.height - k = (ch.height - (k + 1)) + 1 := by omega
    have hd1 : ((mget ch.heights (ch.height - (k + 1))).isSome) := by
      rw [hInv.dom]; omega
    obtain ⟨pd, hpd⟩ := Option.isSome_iff_exists.mp hd1
    have hd0 : ((mget ch.heights (ch.height - k)).isSome) := by
      rw [hInv.dom]; omega
    obtain ⟨hd, hhd⟩ := Option.isSome_iff_exists.mp hd0
    have hlink := hInv.link (ch.height - (k + 1)) hd pd (by rw [← hkk]; exact hhd) hpd
    rw [ancHdr_succ_back, ih (by omega), hhd, hpd]
    show mget ch.hashes hd.prevBlock = some pd
    rw [hlink, hInv.keyv pd.hashv pd (hInv.htsMem _ pd hpd)]
    exact hInv.htsMem _ pd hpd

/-- Two stored headers with the same cached hash are the same entry. -/
theorem entry_unique (ch : Chain) (hInv : ChainInv ch) (a b : Header)
    (ka kb : Nat) (ha : mget ch.hashes ka = some a) (hb : mget ch.hashes kb = some b)
    (heq : a.hashv = b.hashv) : a = b := by
  have h1 := hInv.keyv ka a ha
  have h2 := hInv.keyv kb b hb
  have : ka = kb := by rw [← h1, ← h2, heq]
  subst this
  rw [ha] at hb
  injection hb

/-- Height `n` is common to the main chain and the candidate's branch:
the heights entry at `n` is exactly the candidate's ancestor at that
height. -/
def commonAt (ch : Chain) (comp : Header) (n : Nat) : Prop :=
  (mget ch.heights n).isSome ∧
  mget ch.heights n = ancHdr ch.hashes comp (comp.height - n)

instance commonAtDec (ch : Chain) (comp : Header) :
    DecidablePred (commonAt ch comp) := fun n => by
  unfold commonAt
  infer_instance

theorem findForkLower_eq (m : HMap Header) (fh : Nat) (longer : Header)
    (fuel : Nat) :
    findForkLower m fh longer fuel =
      (if longer.height > fh then
        match fuel with
        | 0 => none
        | fuel + 1 =>
          match mget m longer.prevBlock with
          | none => none
          | some l => findForkLower m fh l fuel
       else some longer) := by
  rw [findForkLower.eq_def]

theorem findForkLower_stop (m : HMap Header) (fh : Nat) (longer : Header)
    (fuel : Nat) (h : ¬ longer.height > fh) :
    findForkLower m fh longer fuel = some longer := by
  rw [findForkLower_eq]
  exact if_neg h

/-- The inner loop of find_fork rewinds the candidate branch to exactly
the fork height. -/
theorem findForkLower_run (ch : Chain) (hInv : ChainInv ch) (comp p : Header)
    (hp : mget ch.hashes comp.prevBlock = some p) (hh : comp.height = p.height + 1)
    (fh : Nat) :
    ∀ fuel k longer, ancHdr ch.hashes comp k = some longer →
      longer.height + k = comp.height → fh ≤ longer.height →
      longer.height - fh ≤ fuel →
      ∃ l', findForkLower ch.hashes fh longer fuel = some l' ∧
        ancHdr ch.hashes comp (comp.height - fh) = some l' ∧ l'.height = fh := by
  intro fuel
  induction fuel with
  | zero =>
    intro k longer ha hht hfh hfuel
    have hlh : longer.height = fh := by omega
    refine ⟨longer, findForkLower_stop _ _ _ _ (by omega), ?_, hlh⟩
    rw [show comp.height - fh = k from by omega]
    exact ha
  | succ fuel ih =>
    intro k longer ha hht hfh hfuel
    by_cases hgt : longer.height > fh
    · obtain ⟨a, ha', hah, hmem⟩ := comp_descend ch hInv comp p hp hh (k + 1) (by omega)
      have hstep : mget ch.hashes longer.prevBlock = some a := by
        have hsb := ancHdr_succ_back ch.hashes comp k
        rw [ha, ha'] at hsb
        exact hsb.symm
      have hunf : findForkLower ch.hashes fh longer (fuel + 1) =
          (match mget ch.hashes longer.prevBlock with
           | none => none
           | some l => findForkLower ch.hashes fh l fuel) := by
        rw [findForkLower_eq]
        exact if_pos hgt
      rw [hunf, hstep]
      exact ih (k + 1) a ha' (by omega) (by omega) (by omega)
    · have hlh : longer.height = fh := by omega
      refine ⟨longer, findForkLower_stop _ _ _ _ hgt, ?_, hlh⟩
      rw [show comp.height - fh = k from by omega]
      exact ha

/-- The outer loop of find_fork returns the heights entry at the
greatest common height `c`. -/
theorem findFork_run (ch : Chain) (hInv : ChainInv ch) (comp p : Header)
    (hp : mget ch.hashes comp.prevBlock = some p) (hh : comp.height = p.height + 1)
    (hnew : mget ch.hashes comp.hashv = none) (c : Nat)
    (hcc : commonAt ch comp c) (hcH : c ≤ ch.height) (hclt : c < comp.height)
    (hcmax : ∀ n, c < n → n ≤ ch.height → ¬ commonAt ch comp n) :
    ∀ fuel fh fork longer,
      mget ch.heights fh = some fork → c ≤ fh → fh ≤ ch.height →
      ancHdr ch.hashes comp (comp.height - longer.height) = some longer →
      (longer.height < comp.height → mget ch.hashes longer.hashv = some longer) →
      (longer.height = comp.height → longer = comp) →
      c ≤ longer.height → longer.height ≤ comp.height →
      fh + longer.height + 2 ≤ fuel →
      ∃ f, hsk_chain_find_fork ch.hashes fork longer fuel = some f ∧
        mget ch.heights c = some f := by
  intro fuel
  induction fuel with
  | zero =>
    intro fh fork longer _ _ _ _ _ _ _ _ hfuel
    omega
  | succ fuel ih =>
    intro fh fork longer hfork hcfh hfhH hanc hlmem hltop hclh hlhc hfuel
    have hforkmem : mget ch.hashes fork.hashv = some fork := by
      rw [hInv.keyv fork.hashv fork (hInv.htsMem fh fork hfork)]
      exact hInv.htsMem fh fork hfork
    have hforkh : fork.height = fh := hInv.hts fh fork hfork
    have hunf : hsk_chain_find_fork ch.hashes fork longer (fuel + 1) =
        (if fork.hashv = longer.hashv then some fork
         else
           match findForkLower ch.hashes fork.height longer fuel with
           | none => none
           | some longer' =>
             if fork.hashv = longer'.hashv then some fork
             else
               match mget ch.hashes fork.prevBlock with
               | none => none
               | some fork' => hsk_chain_find_fork ch.hashes fork' longer' fuel) := rfl
    -- the equality test against a branch header at height n below the top
    -- succeeds only at a common height, which maximality pins to c
    have hstopAt : ∀ longer2 : Header,
        ancHdr ch.hashes comp (comp.height - longer2.height) = some longer2 →
        (longer2.height < comp.height → mget ch.hashes longer2.hashv = some longer2) →
        (longer2.height = comp.height → longer2 = comp) →
        c ≤ longer2.height → longer2.height ≤ comp.height →
        fork.hashv = longer2.hashv →
        fh = c ∧ fork = longer2 := by
      intro longer2 hanc2 hlmem2 hltop2 hclh2 hlhc2 heqv
      rcases Nat.lt_or_ge longer2.height comp.height with hlt | hge
      · have hl2mem := hlmem2 hlt
        have heq : fork = longer2 :=
          entry_unique ch hInv fork longer2 fork.hashv longer2.hashv hforkmem hl2mem heqv
        have hfheq : fh = longer2.height := by rw [← hforkh, heq]
        have hcommon : commonAt ch comp fh := by
          constructor
          · rw [hfork]; rfl
          · rw [hfork, hfheq, hanc2, heq]
        have : ¬ c < fh := fun hlt2 => hcmax fh hlt2 hfhH hcommon
        exact ⟨by omega, heq⟩
      · have : longer2.height = comp.height := by omega
        have hl2 : longer2 = comp := hltop2 this
        rw [hl2] at heqv
        rw [← heqv] at hnew
        rw [hforkmem] at hnew
        exact absurd hnew (by simp)
    by_cases heq1 : fork.hashv = longer.hashv
    · obtain ⟨hfc, hfl⟩ := hstopAt longer hanc hlmem hltop hclh hlhc heq1
      rw [hunf, if_pos heq1]
      exact ⟨fork, rfl, by rw [← hfc]; exact hfork⟩
    · rw [hunf, if_neg heq1]
      -- run the inner loop
      rcases Nat.lt_or_ge fork.height longer.height with hlo | hlo
      · -- longer is rewound to exactly fork.height
        obtain ⟨l', hl', hanc', hlh'⟩ := findForkLower_run ch hInv comp p hp hh
          fork.height fuel (comp.height - longer.height) longer hanc
          (by omega) (by omega) (by omega)
        rw [hl']
        have hl'mem : l'.height < comp.height → mget ch.hashes l'.hashv = some l' := by
          intro hlt
          obtain ⟨a, haa, hah, hmem⟩ := comp_descend ch hInv comp p hp hh
            (comp.height - l'.height) (by omega)
          rw [hlh'] at haa
          rw [haa] at hanc'
          injection hanc' with he
          subst he
          exact hmem (by omega)
        have hl'top : l'.height = comp.height → l' = comp := by
          intro htop
          omega
        have hred : (match some l' with
             | none => none
             | some longer' =>
               if fork.hashv = longer'.hashv then some fork
               else
                 match mget ch.hashes fork.prevBlock with
                 | none => none
                 | some fork' => hsk_chain_find_fork ch.hashes fork' longer' fuel) =
            (if fork.hashv = l'.hashv then some fork
             else
               match mget ch.hashes fork.prevBlock with
               | none => none
               | some fork' => hsk_chain_find_fork ch.hashes fork' l' fuel) := rfl
        rw [hred]
        by_cases heq2 : fork.hashv = l'.hashv
        · obtain ⟨hfc, hfl⟩ := hstopAt l'
            (by rw [hlh']; exact hanc') hl'mem hl'top (by omega) (by omega) heq2
          rw [if_pos heq2]
          exact ⟨fork, rfl, by rw [← hfc]; exact hfork⟩
        · rw [if_neg heq2]
          -- fork is strictly above c: descend it one step on the main chain
          have hfhgt : c < fh := by
            rcases Nat.lt_or_ge c fh with hx | hx
            · exact hx
            · exfalso
              have hfheq : fh = c := by omega
              have hcc2 := hcc.2
              have hsome := hcc.1
              obtain ⟨f0, hf0⟩ := Option.isSome_iff_exists.mp hsome
              rw [hf0] at hcc2
              rw [← hfheq] at hf0
              rw [hfork] at hf0
              injection hf0 with hf0e
              rw [show comp.height - c = comp.height - fork.height from by omega] at hcc2
              rw [hanc'] at hcc2
              injection hcc2 with hcc2e
              exact heq2 (by rw [hf0e, hcc2e])
          have hd1 : ((mget ch.heights (fh - 1)).isSome) := by
            rw [hInv.dom]; omega
          obtain ⟨pd, hpd⟩ := Option.isSome_iff_exists.mp hd1
          have hlink := hInv.link (fh - 1) fork pd
            (by rw [show fh - 1 + 1 = fh from by omega]; exact hfork) hpd
          have hstep : mget ch.hashes fork.prevBlock = some pd := by
            rw [hlink, hInv.keyv pd.hashv pd (hInv.htsMem _ pd hpd)]
            exact hInv.htsMem _ pd hpd
          rw [hstep]
          exact ih (fh - 1) pd l' hpd (by omega) (by omega)
            (by rw [hlh']; exact hanc') hl'mem hl'top (by omega) (by omega)
            (by omega)
      · -- no rewinding needed
        rw [findForkLower_stop ch.hashes fork.height longer fuel (by omega)]
        have hred : (match some longer with
             | none => none
             | some longer' =>
               if fork.hashv = longer'.hashv then some fork
               else
                 match mget ch.hashes fork.prevBlock with
                 | none => none
                 | some fork' => hsk_chain_find_fork ch.hashes fork' longer' fuel) =
            (if fork.hashv = longer.hashv then some fork
             else
               match mget ch.hashes fork.prevBlock with
               | none => none
               | some fork' => hsk_chain_find_fork ch.hashes fork' longer fuel) := rfl
        rw [hred]
        by_cases heq2 : fork.hashv = longer.hashv
        · exact absurd heq2 heq1
        · rw [if_neg heq2]
          have hfhgt : c < fh := by
            rcases Nat.lt_or_ge c fh with hx | hx
            · exact hx
            · exfalso
              have hfheq : fh = c := by omega
              have : longer.height = c := by omega
              have hcc2 := hcc.2
              obtain ⟨f0, hf0⟩ := Option.isSome_iff_exists.mp hcc.1
              rw [hf0] at hcc2
              rw [← hfheq] at hf0
              rw [hfork] at hf0
              injection hf0 with hf0e
              rw [show comp.height - c = comp.height - longer.height from by omega] at hcc2
              rw [hanc] at hcc2
              injection hcc2 with hcc2e
              exact heq2 (by rw [hf0e, hcc2e])
          have hd1 : ((mget ch.heights (fh - 1)).isSome) := by
            rw [hInv.dom]; omega
          obtain ⟨pd, hpd⟩ := Option.isSome_iff_exists.mp hd1
          have hlink := hInv.link (fh - 1) fork pd
            (by rw [show fh - 1 + 1 = fh from by omega]; exact hfork) hpd
          have hstep : mget ch.hashes fork.prevBlock = some pd := by
            rw [hlink, hInv.keyv pd.hashv pd (hInv.htsMem _ pd hpd)]
            exact hInv.htsMem _ pd hpd
          rw [hstep]
          exact ih (fh - 1) pd longer hpd (by omega) (by omega) hanc hlmem hltop
            (by omega) (by omega) (by omega)

theorem walkToFork_eq (m : HMap Header) (f h : Header) (fuel : Nat) :
    walkToFork m f h fuel =
      (if h.hashv = f.hashv then some []
       else
         match fuel with
         | 0 => none
         | fuel + 1 =>
           match mget m h.prevBlock with
           | none => none
           | some p => (walkToFork m f p fuel).map (h :: ·)) := by
  rw [walkToFork.eq_def]

/-- The disconnect walk from the tip collects exactly the main-chain
headers with heights in (c, n]. -/
theorem walkToFork_main (ch : Chain) (hInv : ChainInv ch) (f : Header) (c : Nat)
    (hf : mget ch.heights c = some f) :
    ∀ fuel n hd, mget ch.heights n = some hd → c ≤ n → n ≤ ch.height →
      n - c ≤ fuel →
      ∃ l, walkToFork ch.hashes f hd fuel = some l ∧
        (∀ k, l.any (fun e => e.height == k) = true ↔ (c < k ∧ k ≤ n)) := by
  have hfh : f.height = c := hInv.hts c f hf
  intro fuel
  induction fuel with
  | zero =>
    intro n hd hhd hcn hnH hfuel
    have hnc : n = c := by omega
    subst hnc
    rw [hf] at hhd
    injection hhd with he
    subst he
    refine ⟨[], ?_, ?_⟩
    · rw [walkToFork_eq, if_pos rfl]
    · intro k
      simp
  | succ fuel ih =>
    intro n hd hhd hcn hnH hfuel
    by_cases hnc : n = c
    · subst hnc
      rw [hf] at hhd
      injection hhd with he
      subst he
      refine ⟨[], ?_, ?_⟩
      · rw [walkToFork_eq, if_pos rfl]
      · intro k
        simp
    · have hhdh : hd.height = n := hInv.hts n hd hhd
      have hne : ¬ hd.hashv = f.hashv := by
        intro heq
        have := entry_unique ch hInv hd f hd.hashv f.hashv
          (by rw [hInv.keyv hd.hashv hd (hInv.htsMem n hd hhd)]
              exact hInv.htsMem n hd hhd)
          (by rw [hInv.keyv f.hashv f (hInv.htsMem c f hf)]
              exact hInv.htsMem c f hf) heq
        rw [this] at hhdh
        omega
      have hd1 : ((mget ch.heights (n - 1)).isSome) := by
        rw [hInv.dom]; omega
      obtain ⟨pd, hpd⟩ := Option.isSome_iff_exists.mp hd1
      have hlink := hInv.link (n - 1) hd pd
        (by rw [show n - 1 + 1 = n from by omega]; exact hhd) hpd
      have hstep : mget ch.hashes hd.prevBlock = some pd := by
        rw [hlink, hInv.keyv pd.hashv pd (hInv.htsMem _ pd hpd)]
        exact hInv.htsMem _ pd hpd
      obtain ⟨l', hl', hany⟩ := ih (n - 1) pd hpd (by omega) (by omega) (by omega)
      refine ⟨hd :: l', ?_, ?_⟩
      · rw [walkToFork_eq, if_neg hne]
        simp [hstep, hl']
      · intro k
        rw [List.any_cons]
        constructor
        · intro hk
          rcases Bool.or_eq_true_iff.mp hk with hk | hk
          · have : hd.height = k := by
              simpa using hk
            omega
          · have := (hany k).mp hk
            omega
        · intro hk
          rcases Nat.lt_or_ge (n - 1) k with hx | hx
          · have : hd.height = k := by omega
            apply Bool.or_eq_true_iff.mpr
            left
            simp [this]
          · apply Bool.or_eq_true_iff.mpr
            right
            exact (hany k).mpr (by omega)

/-- The connect walk from the candidate collects exactly its ancestors
down to, and excluding, the fork; element `i` of the list is the
candidate's `k + i`-step ancestor. -/
theorem walkToFork_branch (ch : Chain) (hInv : ChainInv ch) (comp p : Header)
    (hp : mget ch.hashes comp.prevBlock = some p) (hh : comp.height = p.height + 1)
    (hnew : mget ch.hashes comp.hashv = none)
    (f : Header) (c : Nat) (hf : mget ch.heights c = some f)
    (hcc : commonAt ch comp c) :
    ∀ fuel k cur, ancHdr ch.hashes comp k = some cur →
      cur.height + k = comp.height → c ≤ cur.height → cur.height - c ≤ fuel →
      ∃ l, walkToFork ch.hashes f cur fuel = some l ∧ l.length + c = cur.height ∧
        (∀ i e, l.get? i = some e → ancHdr ch.hashes comp (k + i) = some e ∧
          e.height + (k + i) = comp.height) := by
  have hfh : f.height = c := hInv.hts c f hf
  have hfmem : mget ch.hashes f.hashv = some f := by
    rw [hInv.keyv f.hashv f (hInv.htsMem c f hf)]
    exact hInv.htsMem c f hf
  have hstop : ∀ cur k, ancHdr ch.hashes comp k = some cur →
      cur.height + k = comp.height → cur.height = c → cur.hashv = f.hashv := by
    intro cur k hcur hck hcurc
    have hcc2 := hcc.2
    rw [hf] at hcc2
    rw [show comp.height - c = k from by omega] at hcc2
    rw [hcur] at hcc2
    injection hcc2 with he
    rw [← he]
  have hgo : ∀ cur k, ancHdr ch.hashes comp k = some cur →
      cur.height + k = comp.height → c < cur.height → ¬ cur.hashv = f.hashv := by
    intro cur k hcur hck hgt heq
    cases k with
    | zero =>
      have hc : cur = comp := by
        injection hcur with he
        exact he.symm
      rw [hc] at heq
      rw [heq] at hnew
      rw [hfmem] at hnew
      exact absurd hnew (by simp)
    | succ k =>
      have hk1 : k + 1 ≤ comp.height := by omega
      obtain ⟨a, ha, hah, hmem⟩ := comp_descend ch hInv comp p hp hh (k + 1) hk1
      rw [ha] at hcur
      injection hcur with he
      have hcmem : mget ch.hashes cur.hashv = some cur := by
        rw [← he]
        exact hmem (by omega)
      have hcf := entry_unique ch hInv cur f cur.hashv f.hashv hcmem hfmem heq
      rw [hcf] at hgt
      omega
  intro fuel
  induction fuel with
  | zero =>
    intro k cur hcur hck hccur hfuel
    have hcc0 : cur.height = c := by omega
    refine ⟨[], ?_, by simp only [List.length_nil]; omega, ?_⟩
    · rw [walkToFork_eq, if_pos (hstop cur k hcur hck hcc0)]
    · intro i e hie
      simp at hie
  | succ fuel ih =>
    intro k cur hcur hck hccur hfuel
    by_cases hcc0 : cur.height = c
    · refine ⟨[], ?_, by simp only [List.length_nil]; omega, ?_⟩
      · rw [walkToFork_eq, if_pos (hstop cur k hcur hck hcc0)]
      · intro i e hie
        simp at hie
    · obtain ⟨nxt, hnxt, hnh, hnmem⟩ := comp_descend ch hInv comp p hp hh (k + 1)
        (by omega)
      have hstep : mget ch.hashes cur.prevBlock = some nxt := by
        have hsb := ancHdr_succ_back ch.hashes comp k
        rw [hcur, hnxt] at hsb
        exact hsb.symm
      obtain ⟨l', hl', hlen, hidx⟩ := ih (k + 1) nxt hnxt (by omega) (by omega)
        (by omega)
      refine ⟨cur :: l', ?_, by simp only [List.length_cons]; omega, ?_⟩
      · rw [walkToFork_eq, if_neg (hgo cur k hcur hck (by omega))]
        simp [hstep, hl']
      · intro i e hie
        cases i with
        | zero =>
          rw [List.get?_cons_zero] at hie
          injection hie with he
          rw [← he]
          exact ⟨hcur, by omega⟩
        | succ i =>
          rw [List.get?_cons_succ] at hie
          have hx := hidx i e hie
          exact ⟨by rw [show k + (i + 1) = k + 1 + i from by omega]; exact hx.1,
            by have := hx.2; omega⟩

/-- Lookup after the disconnect fold: a key is gone exactly when some
walked header carries it. -/
theorem mget_delFold (l : List Header) :
    ∀ (M : HMap Header) (k : Nat),
      mget (l.foldl (fun m c => mdel m c.height) M) k =
        if l.any (fun e => e.height == k) then none else mget M k := by
  induction l with
  | nil =>
    intro M k
    simp
  | cons e l ih =>
    intro M k
    show mget (l.foldl (fun m c => mdel m c.height) (mdel M e.height)) k = _
    rw [ih]
    rw [List.any_cons]
    by_cases hk : e.height = k
    · subst hk
      by_cases ha : l.any (fun x => x.height == e.height) = true
      · simp [ha]
      · simp [ha, mget_mdel_self]
    · have hbeq : (e.height == k) = false := by simp [hk]
      rw [hbeq]
      by_cases ha : l.any (fun x => x.height == k) = true
      · simp [ha]
      · simp [ha, mget_mdel_ne M e.height k (fun hh => hk hh.symm)]

/-- Lookup after the connect fold: the last walked header with the key
wins, otherwise the underlying map answers. -/
theorem mget_setFold (l : List Header) :
    ∀ (M : HMap Header) (k : Nat),
      mget (l.foldl (fun m c => mset m c.height c) M) k =
        (match l.reverse.find? (fun e => e.height == k) with
         | some e => some e
         | none => mget M k) := by
  induction l with
  | nil =>
    intro M k
    simp
  | cons e l ih =>
    intro M k
    show mget (l.foldl (fun m c => mset m c.height c) (mset M e.height e)) k = _
    rw [ih, List.reverse_cons, List.find?_append]
    cases hfr : l.reverse.find? (fun x => x.height == k) with
    | some x => simp
    | none =>
      by_cases hk : e.height = k
      · subst hk
        simp [List.find?, mget_mset_self]
      · have hbeq : (e.height == k) = false := by simp [hk]
        simp [List.find?, hbeq, mget_mset_ne M e.height e k (fun hh => hk hh.symm)]

theorem get?_tail {α : Type} (l : List α) (n : Nat) :
    l.tail.get? n = l.get? (n + 1) := by
  cases l <;> simp

theorem find?_height_some (l : List Header) (k : Nat) :
    ∀ (i : Nat) (e : Header), l.get? i = some e → e.height = k →
      (∀ j e', j < i → l.get? j = some e' → e'.height ≠ k) →
      l.find? (fun x => x.height == k) = some e := by
  induction l with
  | nil =>
    intro i e hi
    simp at hi
  | cons a l ih =>
    intro i e hi he hbef
    cases i with
    | zero =>
      rw [List.get?_cons_zero] at hi
      injection hi with hie
      subst hie
      rw [List.find?_cons]
      simp [he]
    | succ i =>
      rw [List.get?_cons_succ] at hi
      have hah : a.height ≠ k :=
        hbef 0 a (by omega) (List.get?_cons_zero)
      rw [List.find?_cons]
      have : (a.height == k) = false := by simp [hah]
      rw [this]
      exact ih i e hi he (fun j e' hj hje =>
        hbef (j + 1) e' (by omega) (by rw [List.get?_cons_succ]; exact hje))

theorem find?_height_none (l : List Header) (k : Nat)
    (hall : ∀ j e, l.get? j = some e → e.height ≠ k) :
    l.find? (fun x => x.height == k) = none := by
  rw [List.find?_eq_none]
  intro x hx
  obtain ⟨n, hn⟩ := List.get?_of_mem hx
  simp [hall n x hn]
/-- Full characterization of hsk_chain_reorganize under the invariant:
only heights changes; below the common height nothing moves, between it
and the competitor the branch ancestors are installed, above both
everything is removed. -/
theorem reorg_heights (ch : Chain) (hInv : ChainInv ch) (comp p : Header)
    (hp : mget ch.hashes comp.prevBlock = some p) (hh : comp.height = p.height + 1)
    (hnew : mget ch.hashes comp.hashv = none) :
    ∃ ch' c, hsk_chain_reorganize ch comp = some ch' ∧
      ch'.hashes = ch.hashes ∧ ch'.orphans = ch.orphans ∧ ch'.prevs = ch.prevs ∧
      ch'.tip = ch.tip ∧ ch'.height = ch.height ∧ ch'.genesis = ch.genesis ∧
      c ≤ ch.height ∧ c < comp.height ∧
      mget ch.heights c = ancHdr ch.hashes comp (comp.height - c) ∧
      (∀ n, n ≤ c → mget ch'.heights n = mget ch.heights n) ∧
      (∀ n, c < n → n < comp.height →
        mget ch'.heights n = ancHdr ch.hashes comp (comp.height - n)) ∧
      (∀ n, c < n → comp.height ≤ n → mget ch'.heights n = none) := by
  have hcomp1 : 1 ≤ comp.height := by omega
  have hc0 : commonAt ch comp 0 := by
    obtain ⟨a, ha, hah, hmem⟩ := comp_descend ch hInv comp p hp hh comp.height le_rfl
    have ha0 : a.height = 0 := by omega
    have hag : a = ch.genesis :=
      hInv.zeroGen a.hashv a (hmem (by omega)) ha0
    constructor
    · rw [hInv.h0]; rfl
    · rw [hInv.h0, show comp.height - 0 = comp.height from rfl, ha, hag]
  have hcc : commonAt ch comp (Nat.findGreatest (commonAt ch comp) ch.height) :=
    Nat.findGreatest_spec (Nat.zero_le _) hc0
  have hcH : Nat.findGreatest (commonAt ch comp) ch.height ≤ ch.height :=
    Nat.findGreatest_le _
  have hcmax : ∀ n, Nat.findGreatest (commonAt ch comp) ch.height < n →
      n ≤ ch.height → ¬ commonAt ch comp n :=
    fun n h1 h2 => Nat.findGreatest_is_greatest h1 h2
  set c := Nat.findGreatest (commonAt ch comp) ch.height with hcdef
  have hclt : c < comp.height := by
    by_contra hge
    have h0' := hcc.2
    rw [show comp.height - c = 0 from by omega] at h0'
    have hcomps : mget ch.heights c = some comp := h0'
    have := hInv.htsMem c comp hcomps
    rw [hnew] at this
    exact absurd this (by simp)
  obtain ⟨f0, hf0⟩ := Option.isSome_iff_exists.mp hcc.1
  -- run find_fork
  obtain ⟨f, hff, hfc⟩ := findFork_run ch hInv comp p hp hh hnew c hcc hcH hclt hcmax
    (ch.tip.height + comp.height + 2) ch.height ch.tip comp hInv.htip hcH le_rfl
    (by rw [show comp.height - comp.height = 0 from by omega]; rfl)
    (fun hlt => absurd hlt (lt_irrefl _)) (fun _ => rfl) (by omega) le_rfl
    (by rw [hInv.tipht])
  -- run the two walks
  obtain ⟨lD, hlD, hanyD⟩ := walkToFork_main ch hInv f c hfc
    (ch.tip.height + comp.height + 2) ch.height ch.tip hInv.htip hcH le_rfl
    (by rw [hInv.tipht]; omega)
  obtain ⟨lC, hlC, hlenC, hidxC⟩ := walkToFork_branch ch hInv comp p hp hh hnew
    f c hfc hcc (ch.tip.height + comp.height + 2) 0 comp rfl (by omega) (by omega)
    (by rw [hInv.tipht]; omega)
  have hunf : hsk_chain_reorganize ch comp =
      (match hsk_chain_find_fork ch.hashes ch.tip comp
          (ch.tip.height + comp.height + 2) with
       | none => none
       | some fork =>
         match walkToFork ch.hashes fork ch.tip (ch.tip.height + comp.height + 2),
               walkToFork ch.hashes fork comp (ch.tip.height + comp.height + 2) with
         | some disconnect, some connect =>
           some { ch with heights := (connect.tail.reverse).foldl (fun m c => mset m c.height c) (disconnect.foldl (fun m c => mdel m c.height) ch.heights) }
         | _, _ => none) := rfl
  have hreorg : hsk_chain_reorganize ch comp =
      some { ch with heights := (lC.tail.reverse).foldl (fun m c => mset m c.height c) (lD.foldl (fun m c => mdel m c.height) ch.heights) } := by
    rw [hunf]
    simp only [hff, hlD, hlC]
  have hlenC' : lC.length = comp.height - c := by omega
  -- the per-index description of the connect list's tail
  have htailidx : ∀ i e, lC.tail.get? i = some e →
      ancHdr ch.hashes comp (i + 1) = some e ∧ e.height + (i + 1) = comp.height := by
    intro i e hie
    rw [get?_tail] at hie
    have := hidxC (i + 1) e hie
    exact ⟨by rw [show i + 1 = 0 + (i + 1) from by omega]; exact this.1,
      by have := this.2; omega⟩
  have htaillen : lC.tail.length = comp.height - c - 1 := by
    rw [List.length_tail]
    omega
  -- final heights lookups
  have hget : ∀ n, mget ((lC.tail.reverse).foldl (fun m c => mset m c.height c)
      (lD.foldl (fun m c => mdel m c.height) ch.heights)) n =
      (match lC.tail.find? (fun e => e.height == n) with
       | some e => some e
       | none => if lD.any (fun e => e.height == n) then none else mget ch.heights n) := by
    intro n
    rw [mget_setFold, List.reverse_reverse, mget_delFold]
  refine ⟨_, c, hreorg, rfl, rfl, rfl, rfl, rfl, rfl, hcH, hclt, ?_, ?_, ?_, ?_⟩
  · rw [hcc.2]
  · -- n ≤ c : untouched
    intro n hn
    show mget ((lC.tail.reverse).foldl _ _) n = _
    rw [hget]
    have hfind : lC.tail.find? (fun e => e.height == n) = none := by
      apply find?_height_none
      intro j e hje
      have hj : j < lC.tail.length := by
        by_contra hge2
        rw [List.get?_eq_none.mpr (by omega)] at hje
        exact absurd hje (by simp)
      have := htailidx j e hje
      omega
    rw [hfind]
    have hany : lD.any (fun e => e.height == n) = false := by
      by_contra htr
      have := (hanyD n).mp (by simpa using htr)
      omega
    rw [hany]
    simp
  · -- c < n < comp.height : the branch ancestor at that height
    intro n h1 h2
    show mget ((lC.tail.reverse).foldl _ _) n = _
    rw [hget]
    obtain ⟨a, ha, hah, hmem⟩ := comp_descend ch hInv comp p hp hh
      (comp.height - n) (by omega)
    cases hie : lC.tail.get? (comp.height - n - 1) with
    | none =>
      rw [List.get?_eq_none] at hie
      omega
    | some e =>
      have hface := htailidx (comp.height - n - 1) e hie
      rw [show comp.height - n - 1 + 1 = comp.height - n from by omega] at hface
      have hfind := find?_height_some lC.tail n (comp.height - n - 1) e hie
        (by have := hface.2; omega)
        (by
          intro j e' hj hje
          have := htailidx j e' hje
          omega)
      rw [hfind]
      rw [ha] at hface
      have hea : e = a := by
        have hx := hface.1
        injection hx with he2
        exact he2.symm
      rw [ha, hea]
  · -- c < n, comp.height ≤ n : removed
    intro n h1 h2
    show mget ((lC.tail.reverse).foldl _ _) n = _
    rw [hget]
    have hfind : lC.tail.find? (fun e => e.height == n) = none := by
      apply find?_height_none
      intro j e hje
      have := htailidx j e hje
      omega
    rw [hfind]
    by_cases hnH : n ≤ ch.height
    · rw [if_pos ((hanyD n).mpr ⟨by omega, hnH⟩)]
    · have hany : lD.any (fun e => e.height == n) = false := by
        by_contra htr
        have := (hanyD n).mp (by simpa using htr)
        omega
      rw [hany]
      simp only [Bool.false_eq_true, if_false]
      have := hInv.dom n
      cases hx : mget ch.heights n with
      | none => rfl
      | some y =>
        rw [hx] at this
        simp at this
        omega

theorem mget_single {α : Type} (k : Nat) (v : α) (k' : Nat) :
    mget (mset ([] : HMap α) k v) k' = if k = k' then some v else none := by
  rw [mget_mset_cases]
  by_cases h : k = k' <;> simp [h, mget]

/-- The invariant holds right after initialization. -/
theorem inv_init (g : Header) (hg0 : g.height = 0) (hgw : g.work < 2 ^ 256) :
    ChainInv (hsk_chain_init g) := by
  constructor <;> rw [hsk_chain_init]
  · intro n
    rw [mget_single]
    by_cases h : g.height = n <;> simp [h] <;> omega
  · intro n hd hh
    rw [mget_single] at hh
    by_cases h : g.height = n
    · rw [if_pos h] at hh
      injection hh with he
      rw [← he, h]
    · rw [if_neg h] at hh
      exact absurd hh (by simp)
  · show mget (mset [] g.height g) 0 = some g
    rw [hg0, mget_single, if_pos rfl]
  · show mget (mset [] g.height g) g.height = some g
    rw [mget_single, if_pos rfl]
  · intro k hd hh
    rw [mget_single] at hh
    by_cases h : g.hashv = k
    · rw [if_pos h] at hh
      injection hh with he
      rw [← he, h]
    · rw [if_neg h] at hh
      exact absurd hh (by simp)
  · show mget (mset [] g.hashv g) g.hashv = some g
    rw [mget_single, if_pos rfl]
  · exact hg0
  · intro k hd hh _
    rw [mget_single] at hh
    by_cases h : g.hashv = k
    · rw [if_pos h] at hh
      injection hh with he
      exact he.symm
    · rw [if_neg h] at hh
      exact absurd hh (by simp)
  · intro k hd hh hh1
    rw [mget_single] at hh
    by_cases h : g.hashv = k
    · rw [if_pos h] at hh
      injection hh with he
      rw [← he] at hh1
      omega
    · rw [if_neg h] at hh
      exact absurd hh (by simp)
  · intro n hd hh
    rw [mget_single] at hh
    by_cases h : g.height = n
    · rw [if_pos h] at hh
      injection hh with he
      rw [← he]
      show mget (mset [] g.hashv g) g.hashv = some g
      rw [mget_single, if_pos rfl]
    · rw [if_neg h] at hh
      exact absurd hh (by simp)
  · intro n hd pd hh1 hh2
    rw [mget_single] at hh1 hh2
    rw [hg0] at hh1 hh2
    rw [if_neg (by omega)] at hh1
    exact absurd hh1 (by simp)
  · exact hgw

/-- The invariant survives installing a new tip `hdr` (with the heights
map described by `hfin`, covering both the plain extension and the
reorganized case). -/
theorem inv_main_install (ch : Chain) (hInv : ChainInv ch) (hdr prev : Header)
    (c : Nat) (ch' : Chain)
    (hd1 : mget ch.hashes hdr.hashv = none)
    (hpr : mget ch.hashes hdr.prevBlock = some prev)
    (hht : hdr.height = prev.height + 1)
    (hw : hdr.work < 2 ^ 256)
    (hcH : c ≤ ch.height) (hclt : c < hdr.height)
    (hcommon : mget ch.heights c = ancHdr ch.hashes hdr (hdr.height - c))
    (hhashes : ch'.hashes = mset ch.hashes hdr.hashv hdr)
    (hheight : ch'.height = hdr.height)
    (htip : ch'.tip = hdr)
    (hgen : ch'.genesis = ch.genesis)
    (hfin : ∀ n, mget ch'.heights n =
      (if n = hdr.height then some hdr
       else if n ≤ c then mget ch.heights n
       else if n < hdr.height then ancHdr ch.hashes hdr (hdr.height - n)
       else none)) :
    ChainInv ch' := by
  have hdesc := comp_descend ch hInv hdr prev hpr hht
  have hnewget : ∀ k, mget ch'.hashes k =
      (if hdr.hashv = k then some hdr else mget ch.hashes k) := by
    intro k
    rw [hhashes, mget_mset_cases]
  -- every header visible through the new heights description at height
  -- c ≤ n ≤ hdr.height is the branch ancestor at that height
  have hAt : ∀ n, c ≤ n → n ≤ hdr.height →
      ∃ q, mget ch'.heights n = some q ∧
        ancHdr ch.hashes hdr (hdr.height - n) = some q ∧ q.height = n := by
    intro n h1 h2
    rcases Nat.lt_or_ge n hdr.height with hlt | hge
    · by_cases hnc : n ≤ c
      · have hnc' : n = c := by omega
        subst hnc'
        obtain ⟨q, hq⟩ := Option.isSome_iff_exists.mp ((hInv.dom n).mpr hcH)
        refine ⟨q, ?_, ?_, hInv.hts n q hq⟩
        · rw [hfin n, if_neg (by omega), if_pos le_rfl]
          exact hq
        · rw [← hcommon]
          exact hq
      · obtain ⟨a, ha, hah, hmem⟩ := hdesc (hdr.height - n) (by omega)
        refine ⟨a, ?_, ha, by omega⟩
        rw [hfin n, if_neg (by omega), if_neg hnc, if_pos hlt]
        exact ha
    · have hn : n = hdr.height := by omega
      subst hn
      refine ⟨hdr, ?_, ?_, rfl⟩
      · rw [hfin, if_pos rfl]
      · rw [show hdr.height - hdr.height = 0 from by omega]
        rfl
  -- link information along the branch
  have hlink2 : ∀ n hd pd, c ≤ n → n + 1 ≤ hdr.height →
      mget ch'.heights (n + 1) = some hd → mget ch'.heights n = some pd →
      hd.prevBlock = pd.hashv := by
    intro n hd pd h1 h2 hh1 hh2
    obtain ⟨q1, hq1, hanc1, -⟩ := hAt (n + 1) (by omega) h2
    obtain ⟨q2, hq2, hanc2, -⟩ := hAt n h1 (by omega)
    rw [hh1] at hq1
    injection hq1 with hq1e
    rw [hh2] at hq2
    injection hq2 with hq2e
    subst hq1e
    subst hq2e
    have hsb := ancHdr_succ_back ch.hashes hdr (hdr.height - (n + 1))
    rw [show hdr.height - (n + 1) + 1 = hdr.height - n from by omega] at hsb
    rw [hanc1, hanc2] at hsb
    have : mget ch.hashes hd.prevBlock = some pd := hsb.symm
    rw [hInv.keyv hd.prevBlock pd this]
  refine ⟨?_, ?_, ?_, ?_, ?_, ?_, ?_, ?_, ?_, ?_, ?_, ?_, ?_⟩
  · -- dom
    intro n
    rw [hheight, hfin n]
    by_cases h1 : n = hdr.height
    · simp [h1]
    · rw [if_neg h1]
      by_cases h2 : n ≤ c
      · rw [if_pos h2]
        rw [hInv.dom n]
        constructor
        · intro _; omega
        · intro _; omega
      · rw [if_neg h2]
        by_cases h3 : n < hdr.height
        · rw [if_pos h3]
          obtain ⟨a, ha, -, -⟩ := hdesc (hdr.height - n) (by omega)
          rw [ha]
          simp
          omega
        · rw [if_neg h3]
          simp
          omega
  · -- hts
    intro n hd hh
    rw [hfin n] at hh
    by_cases h1 : n = hdr.height
    · rw [if_pos h1] at hh
      injection hh with he
      rw [← he, h1]
    · rw [if_neg h1] at hh
      by_cases h2 : n ≤ c
      · rw [if_pos h2] at hh
        exact hInv.hts n hd hh
      · rw [if_neg h2] at hh
        by_cases h3 : n < hdr.height
        · rw [if_pos h3] at hh
          obtain ⟨a, ha, hah, -⟩ := hdesc (hdr.height - n) (by omega)
          rw [ha] at hh
          injection hh with he
          rw [← he]
          omega
        · rw [if_neg h3] at hh
          exact absurd hh (by simp)
  · -- h0
    rw [hgen, hfin 0, if_neg (by omega), if_pos (by omega)]
    exact hInv.h0
  · -- htip
    rw [hheight, htip, hfin, if_pos rfl]
  · -- tipht
    rw [htip, hheight]
  · -- keyv
    intro k hd hh
    rw [hnewget k] at hh
    by_cases h1 : hdr.hashv = k
    · rw [if_pos h1] at hh
      injection hh with he
      rw [← he, h1]
    · rw [if_neg h1] at hh
      exact hInv.keyv k hd hh
  · -- gmem
    rw [hgen, hnewget]
    have hne : ¬ hdr.hashv = ch.genesis.hashv := by
      intro heq
      rw [heq, hInv.gmem] at hd1
      exact absurd hd1 (by simp)
    rw [if_neg hne]
    exact hInv.gmem
  · -- gh0
    rw [hgen]
    exact hInv.gh0
  · -- zeroGen
    intro k hd hh h0
    rw [hnewget k] at hh
    by_cases h1 : hdr.hashv = k
    · rw [if_pos h1] at hh
      injection hh with he
      rw [← he] at h0
      omega
    · rw [if_neg h1] at hh
      rw [hgen]
      exact hInv.zeroGen k hd hh h0
  · -- parent
    intro k hd hh h1
    rw [hnewget k] at hh
    by_cases h2 : hdr.hashv = k
    · rw [if_pos h2] at hh
      injection hh with he
      subst he
      refine ⟨prev, ?_, by omega⟩
      rw [hnewget]
      have hne : ¬ hdr.hashv = hdr.prevBlock := by
        intro heq
        rw [← heq] at hpr
        rw [hd1] at hpr
        exact absurd hpr (by simp)
      rw [if_neg hne]
      exact hpr
    · rw [if_neg h2] at hh
      obtain ⟨pd, hpd, hpdh⟩ := hInv.parent k hd hh h1
      refine ⟨pd, ?_, hpdh⟩
      rw [hnewget]
      have hne : ¬ hdr.hashv = hd.prevBlock := by
        intro heq
        rw [← heq] at hpd
        rw [hd1] at hpd
        exact absurd hpd (by simp)
      rw [if_neg hne]
      exact hpd
  · -- htsMem
    intro n hd hh
    rw [hfin n] at hh
    have hold : ∀ hd2 : Header, mget ch.hashes hd2.hashv = some hd2 →
        mget ch'.hashes hd2.hashv = some hd2 := by
      intro hd2 hm
      rw [hnewget]
      have hne : ¬ hdr.hashv = hd2.hashv := by
        intro heq
        rw [heq, hm] at hd1
        exact absurd hd1 (by simp)
      rw [if_neg hne]
      exact hm
    by_cases h1 : n = hdr.height
    · rw [if_pos h1] at hh
      injection hh with he
      subst he
      rw [hnewget, if_pos rfl]
    · rw [if_neg h1] at hh
      by_cases h2 : n ≤ c
      · rw [if_pos h2] at hh
        exact hold hd (hInv.htsMem n hd hh)
      · rw [if_neg h2] at hh
        by_cases h3 : n < hdr.height
        · rw [if_pos h3] at hh
          obtain ⟨a, ha, hah, hmem⟩ := hdesc (hdr.height - n) (by omega)
          rw [ha] at hh
          injection hh with he
          subst he
          exact hold a (hmem (by omega))
        · rw [if_neg h3] at hh
          exact absurd hh (by simp)
  · -- link
    intro n hd pd hh1 hh2
    by_cases h1 : n + 1 ≤ c
    · rw [hfin (n + 1), if_neg (by omega), if_pos h1] at hh1
      rw [hfin n, if_neg (by omega), if_pos (by omega)] at hh2
      exact hInv.link n hd pd hh1 hh2
    · by_cases h2 : n + 1 ≤ hdr.height
      · by_cases h3 : n + 1 ≤ c
        · omega
        · -- c ≤ n here: if n < c then n + 1 ≤ c
          exact hlink2 n hd pd (by omega) h2 hh1 hh2
      · rw [hfin (n + 1), if_neg (by omega), if_neg (by omega), if_neg (by omega)] at hh1
        exact absurd hh1 (by simp)
  · -- tipw
    rw [htip]
    exact hw

/-- The invariant survives storing an alternate-branch header in the
hashes map (tip, height and heights untouched). -/
theorem inv_hashes_extend (ch : Chain) (hInv : ChainInv ch) (hdr prev : Header)
    (hd1 : mget ch.hashes hdr.hashv = none)
    (hpr : mget ch.hashes hdr.prevBlock = some prev)
    (hht : hdr.height = prev.height + 1) :
    ChainInv { ch with hashes := mset ch.hashes hdr.hashv hdr } := by
  have hnewget : ∀ k, mget (mset ch.hashes hdr.hashv hdr) k =
      (if hdr.hashv = k then some hdr else mget ch.hashes k) := by
    intro k
    rw [mget_mset_cases]
  refine ⟨hInv.dom, hInv.hts, hInv.h0, hInv.htip, hInv.tipht, ?_, ?_, hInv.gh0,
    ?_, ?_, ?_, hInv.link, hInv.tipw⟩
  · -- keyv
    intro k hd hh
    rw [hnewget k] at hh
    by_cases h1 : hdr.hashv = k
    · rw [if_pos h1] at hh
      injection hh with he
      rw [← he, h1]
    · rw [if_neg h1] at hh
      exact hInv.keyv k hd hh
  · -- gmem
    rw [hnewget]
    have hne : ¬ hdr.hashv = ch.genesis.hashv := by
      intro heq
      rw [heq, hInv.gmem] at hd1
      exact absurd hd1 (by simp)
    rw [if_neg hne]
    exact hInv.gmem
  · -- zeroGen
    intro k hd hh h0
    rw [hnewget k] at hh
    by_cases h1 : hdr.hashv = k
    · rw [if_pos h1] at hh
      injection hh with he
      rw [← he] at h0
      omega
    · rw [if_neg h1] at hh
      exact hInv.zeroGen k hd hh h0
  · -- parent
    intro k hd hh h1
    rw [hnewget k] at hh
    by_cases h2 : hdr.hashv = k
    · rw [if_pos h2] at hh
      injection hh with he
      subst he
      refine ⟨prev, ?_, by omega⟩
      rw [hnewget]
      have hne : ¬ hdr.hashv = hdr.prevBlock := by
        intro heq
        rw [← heq] at hpr
        rw [hd1] at hpr
        exact absurd hpr (by simp)
      rw [if_neg hne]
      exact hpr
    · rw [if_neg h2] at hh
      obtain ⟨pd, hpd, hpdh⟩ := hInv.parent k hd hh h1
      refine ⟨pd, ?_, hpdh⟩
      rw [hnewget]
      have hne : ¬ hdr.hashv = hd.prevBlock := by
        intro heq
        rw [← heq] at hpd
        rw [hd1] at hpd
        exact absurd hpd (by simp)
      rw [if_neg hne]
      exact hpd
  · -- htsMem
    intro n hd hh
    have hm := hInv.htsMem n hd hh
    rw [hnewget]
    have hne : ¬ hdr.hashv = hd.hashv := by
      intro heq
      rw [heq, hm] at hd1
      exact absurd hd1 (by simp)
    rw [if_neg hne]
    exact hm

/-- The invariant is preserved by hsk_chain_add under the always-succeeds
allocation oracle. -/
theorem inv_preserve (C : Consts) (env : Env) (ch : Chain) (h : Header)
    (rc : HCode) (ch' : Chain) (hInv : ChainInv ch)
    (he : hsk_chain_add C env allocAll ch h = some (rc, ch')) :
    ChainInv ch' := by
  rcases add_main_cases C env allocAll ch h rc ch' he with
      ⟨hA, -⟩
    | ⟨-, hflag, -⟩
    | ⟨-, -, -, hC⟩
    | ⟨prev, w, hd1, hpr, hcw, hle, -, hD⟩
    | ⟨prev, w, ch1, -, -, -, -, -, -, hflag, -⟩
    | ⟨prev, w, ch1, hd1, hpr, hcw, hgt, hre, -, hF⟩
  · rw [hA]
    exact hInv
  · simp [allocAll] at hflag
  · rw [hC]
    exact ⟨hInv.dom, hInv.hts, hInv.h0, hInv.htip, hInv.tipht, hInv.keyv,
      hInv.gmem, hInv.gh0, hInv.zeroGen, hInv.parent, hInv.htsMem, hInv.link,
      hInv.tipw⟩
  · rw [hD]
    exact inv_hashes_extend ch hInv { h with height := prev.height + 1, work := w }
      prev hd1 hpr rfl
  · rcases hflag with hflag | hflag
    · simp [allocAll] at hflag
    · simp [allocAll] at hflag
  · -- main install, with or without a reorganization
    have hw : w < 2 ^ 256 := calcWork_lt prev.work h.bits w hcw
    by_cases hp : h.prevBlock ≠ ch.tip.hashv
    · -- reorg path
      rw [if_pos hp] at hre
      obtain ⟨ch2, c, hr2, hrhash, horph, hprevs, hrtip, hrht, hrgen,
        hcH, hclt, hcommon, hre1, hre2, hre3⟩ :=
        reorg_heights ch hInv { h with height := prev.height + 1, work := w }
          prev hpr rfl hd1
      rw [hr2] at hre
      injection hre with hre
      subst hre
      refine inv_main_install ch hInv
        { h with height := prev.height + 1, work := w } prev c ch'
        hd1 hpr rfl hw hcH hclt hcommon ?_ ?_ ?_ ?_ ?_
      · rw [hF]
        show mset ch2.hashes h.hashv _ = _
        rw [hrhash]
      · rw [hF]
      · rw [hF]
      · rw [hF]
        show ch2.genesis = ch.genesis
        exact hrgen
      · intro n
        rw [hF]
        show mget (mset ch2.heights (prev.height + 1) _) n = _
        rw [mget_mset_cases]
        by_cases h1 : n = prev.height + 1
        · rw [if_pos h1.symm, if_pos h1]
        · rw [if_neg (fun he2 => h1 he2.symm), if_neg h1]
          by_cases h2 : n ≤ c
          · rw [if_pos h2]
            exact hre1 n h2
          · rw [if_neg h2]
            by_cases h3 : n < prev.height + 1
            · rw [if_pos h3]
              exact hre2 n (by omega) h3
            · rw [if_neg h3]
              exact hre3 n (by omega) (by show prev.height + 1 <= n; omega)
    · -- direct extension of the tip
      rw [if_neg hp] at hre
      injection hre with hre
      subst hre
      have hptip : h.prevBlock = ch.tip.hashv := by
        by_contra hc2
        exact hp hc2
      have htipmem : mget ch.hashes ch.tip.hashv = some ch.tip :=
        hInv.htsMem ch.height ch.tip hInv.htip
      have hprev_tip : prev = ch.tip := by
        rw [hptip, htipmem] at hpr
        injection hpr with he2
        exact he2.symm
      have hcommon : mget ch.heights ch.height =
          ancHdr ch.hashes { h with height := prev.height + 1, work := w }
            ({ h with height := prev.height + 1, work := w }.height - ch.height) := by
        have hone : ({ h with height := prev.height + 1, work := w } : Header).height
            - ch.height = 1 := by
          show prev.height + 1 - ch.height = 1
          rw [hprev_tip, hInv.tipht]
          omega
        rw [hone]
        have hanc1 : ancHdr ch.hashes { h with height := prev.height + 1, work := w } 1
            = mget ch.hashes h.prevBlock := by
          rw [ancHdr_succ_back]
          show (some _).bind _ = _
          rfl
        rw [hanc1, hptip, htipmem, hInv.htip]
      refine inv_main_install ch hInv
        { h with height := prev.height + 1, work := w } prev ch.height ch'
        hd1 hpr rfl hw le_rfl ?_ hcommon ?_ ?_ ?_ ?_ ?_
      · show ch.height < prev.height + 1
        rw [hprev_tip, hInv.tipht]
        omega
      · rw [hF]
      · rw [hF]
      · rw [hF]
      · rw [hF]
      · intro n
        rw [hF]
        show mget (mset ch.heights (prev.height + 1) _) n = _
        rw [mget_mset_cases]
        by_cases h1 : n = prev.height + 1
        · rw [if_pos h1.symm, if_pos h1]
        · rw [if_neg (fun he2 => h1 he2.symm), if_neg h1]
          by_cases h2 : n ≤ ch.height
          · rw [if_pos h2]
          · rw [if_neg h2]
            have h3 : ¬ n < prev.height + 1 := by
              rw [hprev_tip, hInv.tipht]
              omega
            rw [if_neg h3]
            have := hInv.dom n
            rcases hnone : mget ch.heights n with _ | q
            · rfl
            · rw [hnone] at this
              simp at this
              omega

/-- Every reachable chain state satisfies the invariant. -/
theorem reachable_inv (C : Consts) (ch : Chain) (hr : Reachable C ch) :
    ChainInv ch := by
  induction hr with
  | init g hg hw => exact inv_init g hg hw
  | step ch0 env h rc ch' hr0 he ih => exact inv_preserve C env ch0 h rc ch' ih he

/-- The initial witness chain is reachable. -/
theorem wch0_reachable : Reachable Wc wch0 :=
  Reachable.init g0w (by decide) (by decide)

/-- The witness chain of height 1 is reachable. -/
theorem wch1_reachable : Reachable Wc wch1 :=
  Reachable.step wch0 Ec h1w .success wch1 wch0_reachable (by decide)

/-- The witness chain of height 2 is reachable. -/
theorem wch2_reachable : Reachable Wc wch2 :=
  Reachable.step wch1 Ec h2w .success wch2 wch1_reachable (by decide)

/-- The witness chain holding one alternate header is reachable. -/
theorem wch3_reachable : Reachable Wc wch3 :=
  Reachable.step wch2 Ec a1w .success wch3 wch2_reachable (by decide)

/-- The witness chain holding the height-2 alternate fork is reachable. -/
theorem wch4_reachable : Reachable Wc wch4 :=
  Reachable.step wch3 Ec a2w .success wch4 wch3_reachable (by decide)

/-- Claim C2: after init and after every successful add (that is, in
every reachable state) the heights map is defined exactly for the heights
0 ≤ n ≤ tip.height, each entry's height field equals its key, heights[0]
is the genesis header and heights[tip.height] is the tip. -/
theorem claim_C2_heights_map (C : Consts) (ch : Chain) (hr : Reachable C ch) :
    (∀ n, (mget ch.heights n).isSome ↔ n ≤ ch.tip.height) ∧
    (∀ n hd, mget ch.heights n = some hd → hd.height = n) ∧
    mget ch.heights 0 = some ch.genesis ∧
    mget ch.heights ch.tip.height = some ch.tip := by
  have hInv := reachable_inv C ch hr
  refine ⟨fun n => ?_, hInv.hts, hInv.h0, ?_⟩
  · rw [hInv.tipht]
    exact hInv.dom n
  · rw [hInv.tipht]
    exact hInv.htip

/-- Witness for claim C2: the two-header witness chain has exactly
heights 0 and 1 populated, with genesis and tip at the ends. -/
theorem claim_C2_witness :
    (mget wch1.heights 1).isSome = true ∧
    mget wch1.heights 0 = some wch1.genesis ∧
    mget wch1.heights wch1.tip.height = some wch1.tip := by
  have h := claim_C2_heights_map Wc wch1 wch1_reachable
  exact ⟨(h.1 1).mpr (by decide), h.2.2.1, h.2.2.2⟩

/-- Claim C3: a reorganization modifies only the heights map. Hashes,
orphans, prevs, tip and height are unchanged; heights keeps the old
entries up to the fork height c, holds the competitor's ancestors
strictly between c and the competitor's height (the competitor itself is
not inserted — the caller does that), and is empty above; every
disconnected old main-chain header remains present in hashes. -/
theorem claim_C3_reorg_frame (C : Consts) (ch : Chain) (comp p : Header)
    (hr : Reachable C ch)
    (hp : mget ch.hashes comp.prevBlock = some p)
    (hh : comp.height = p.height + 1)
    (hnew : mget ch.hashes comp.hashv = none) :
    ∃ ch' c, hsk_chain_reorganize ch comp = some ch' ∧
      ch'.hashes = ch.hashes ∧ ch'.orphans = ch.orphans ∧ ch'.prevs = ch.prevs ∧
      ch'.tip = ch.tip ∧ ch'.height = ch.height ∧
      c ≤ ch.height ∧ c < comp.height ∧
      (∀ n, n ≤ c → mget ch'.heights n = mget ch.heights n) ∧
      (∀ n, c < n → n < comp.height →
        mget ch'.heights n = ancHdr ch.hashes comp (comp.height - n)) ∧
      (∀ n, c < n → comp.height ≤ n → mget ch'.heights n = none) ∧
      (∀ n hd, mget ch.heights n = some hd → mget ch'.hashes hd.hashv = some hd) := by
  have hInv := reachable_inv C ch hr
  obtain ⟨ch', c, h1, h2, h3, h4, h5, h6, h7, h8, h9, h10, h11, h12, h13⟩ :=
    reorg_heights ch hInv comp p hp hh hnew
  exact ⟨ch', c, h1, h2, h3, h4, h5, h6, h8, h9, h11, h12, h13,
    fun n hd hm => by rw [h2]; exact hInv.htsMem n hd hm⟩

/-- Witness for claim C3: reorganizing the concrete forked chain onto the
height-3 competitor satisfies the frame description. -/
theorem claim_C3_witness :
    mget wch4.hashes 12 = none ∧
    (∃ ch' c, hsk_chain_reorganize wch4 (⟨12, 11, 2300, 0x207fffff, 3, 8⟩ : Header) = some ch' ∧
      ch'.hashes = wch4.hashes ∧ ch'.orphans = wch4.orphans ∧ ch'.prevs = wch4.prevs ∧
      ch'.tip = wch4.tip ∧ ch'.height = wch4.height ∧
      c ≤ wch4.height ∧ c < 3 ∧
      (∀ n, n ≤ c → mget ch'.heights n = mget wch4.heights n) ∧
      (∀ n, c < n → n < 3 →
        mget ch'.heights n = ancHdr wch4.hashes (⟨12, 11, 2300, 0x207fffff, 3, 8⟩ : Header) (3 - n)) ∧
      (∀ n, c < n → 3 ≤ n → mget ch'.heights n = none) ∧
      (∀ n hd, mget wch4.heights n = some hd → mget ch'.hashes hd.hashv = some hd)) := by
  refine ⟨by decide, ?_⟩
  exact claim_C3_reorg_frame Wc wch4 ⟨12, 11, 2300, 0x207fffff, 3, 8⟩
    ⟨11, 10, 2200, 0x207fffff, 2, 6⟩ wch4_reachable (by decide) (by decide) (by decide)

/-- Unfolding of locatorLoop at zero fuel. -/
theorem locatorLoop_fuel_zero (hts : HMap Header) (height step i : Nat)
    (acc : List Nat) :
    locatorLoop hts 0 height step i acc =
      (if height = 0 then some acc.reverse else none) := rfl

/-- Unfolding of locatorLoop at positive fuel. -/
theorem locatorLoop_fuel_succ (hts : HMap Header) (fuel height step i : Nat)
    (acc : List Nat) :
    locatorLoop hts (fuel + 1) height step i acc =
      (if height = 0 then some acc.reverse
       else
         match mget hts (if i = 64 - 1 then 0 else height - step) with
         | none => none
         | some hdr =>
           locatorLoop hts fuel (if i = 64 - 1 then 0 else height - step)
             (if i > 10 then step * 2 else step) (i + 1) (hdr.hashv :: acc)) := rfl

/-- locatorLoop at height 0 returns the accumulator, whatever the fuel. -/
theorem locatorLoop_height_zero (hts : HMap Header) (fuel step i : Nat)
    (acc : List Nat) :
    locatorLoop hts fuel 0 step i acc = some acc.reverse := by
  cases fuel with
  | zero => rfl
  | succ fuel => rfl

/-- Behaviour of the locator loop over a heights map covering exactly
the heights 0..H: the loop terminates, returns at most 64 hashes, keeps
the already-pushed first hash first, and ends on the height-0 entry
whenever at least one iteration runs. -/
theorem locatorLoop_run (hts : HMap Header) (H : Nat)
    (hdom : ∀ n, (mget hts n).isSome ↔ n ≤ H) :
    ∀ fuel height step i acc,
      height ≤ fuel → height ≤ H → 1 ≤ step → acc.length = i → 1 ≤ i → i ≤ 63 →
      ∃ l, locatorLoop hts fuel height step i acc = some l ∧
        l.length ≤ 64 ∧ l.head? = acc.getLast? ∧
        (1 ≤ height → ∃ g, mget hts 0 = some g ∧ l.getLast? = some g.hashv) ∧
        (height = 0 → l = acc.reverse) := by
  intro fuel
  induction fuel with
  | zero =>
    intro height step i acc hhf hhH hs hal hi1 hi63
    have hh0 : height = 0 := by omega
    subst hh0
    refine ⟨acc.reverse, by rw [locatorLoop_fuel_zero, if_pos rfl], ?_, ?_, ?_, fun _ => rfl⟩
    · rw [List.length_reverse, hal]
      omega
    · rw [List.head?_reverse]
    · intro hcon
      omega
  | succ fuel ih =>
    intro height step i acc hhf hhH hs hal hi1 hi63
    by_cases hh0 : height = 0
    · subst hh0
      refine ⟨acc.reverse, locatorLoop_height_zero hts _ _ _ _, ?_, ?_, ?_, fun _ => rfl⟩
      · rw [List.length_reverse, hal]
        omega
      · rw [List.head?_reverse]
      · intro hcon
        omega
    · have hne : ∃ b t, acc = b :: t := by
        cases acc with
        | nil => simp at hal; omega
        | cons b t => exact ⟨b, t, rfl⟩
      obtain ⟨b, t, hacc⟩ := hne
      have hCons : ∀ x : Nat, (x :: acc).getLast? = acc.getLast? := by
        intro x
        rw [hacc]
        rw [List.getLast?_cons_cons]
      rw [locatorLoop_fuel_succ, if_neg hh0]
      by_cases h63 : i = 64 - 1
      · rw [if_pos h63]
        obtain ⟨g, hg⟩ := Option.isSome_iff_exists.mp ((hdom 0).mpr (by omega))
        rw [hg]
        refine ⟨(g.hashv :: acc).reverse, locatorLoop_height_zero hts _ _ _ _,
          ?_, ?_, ?_, ?_⟩
        · rw [List.length_reverse, List.length_cons, hal]
          omega
        · rw [List.head?_reverse, hCons]
        · intro h1
          refine ⟨g, rfl, ?_⟩
          rw [List.getLast?_reverse]
          rfl
        · intro hcon
          exact absurd hcon hh0
      · rw [if_neg h63]
        have hstep1 : height - step ≤ height - 1 := by omega
        obtain ⟨hdr, hhdr⟩ := Option.isSome_iff_exists.mp
          ((hdom (height - step)).mpr (by omega))
        rw [hhdr]
        obtain ⟨l, heq, hlen, hhead, hlast, hz⟩ :=
          ih (height - step) (if i > 10 then step * 2 else step) (i + 1)
            (hdr.hashv :: acc) (by omega) (by omega)
            (by by_cases hgt : i > 10 <;> simp [hgt] <;> omega)
            (by rw [List.length_cons, hal]) (by omega) (by omega)
        refine ⟨l, heq, hlen, ?_, ?_, ?_⟩
        · rw [hhead, hCons]
        · intro h1
          by_cases hz2 : height - step = 0
          · refine ⟨hdr, ?_, ?_⟩
            · rw [← hz2]
              exact hhdr
            · rw [hz hz2, List.getLast?_reverse]
              rfl
          · exact hlast (by omega)
        · intro hcon
          exact absurd hcon hh0

/-- Claim C6: on every reachable chain the locator terminates with at
most 64 hashes, the first being the tip's hash; height 0 is forced by
the 63rd entry, so the genesis hash is last whenever tip.height ≥ 63;
and on a genesis-only chain the locator is exactly the genesis hash. -/
theorem claim_C6_locator (C : Consts) (ch : Chain) (hr : Reachable C ch) :
    ∃ l, hsk_chain_get_locator ch = some l ∧
      l.length ≤ 64 ∧
      l.head? = some ch.tip.hashv ∧
      (63 ≤ ch.tip.height → l.getLast? = some ch.genesis.hashv) ∧
      (ch.tip.height = 0 → l = [ch.genesis.hashv]) := by
  have hInv := reachable_inv C ch hr
  obtain ⟨l, heq, hlen, hhead, hlast, hz⟩ :=
    locatorLoop_run ch.heights ch.height hInv.dom (ch.height + 1) ch.height 1 1
      [ch.tip.hashv] (by omega) le_rfl le_rfl rfl le_rfl (by omega)
  refine ⟨l, heq, hlen, ?_, ?_, ?_⟩
  · rw [hhead]
    rfl
  · intro h63
    have h1 : 1 ≤ ch.height := by
      rw [← hInv.tipht]
      omega
    obtain ⟨g, hg, hl⟩ := hlast h1
    rw [hInv.h0] at hg
    injection hg with hg
    rw [hl, hg]
  · intro h0
    have hch0 : ch.height = 0 := by
      rw [← hInv.tipht]
      exact h0
    have htg : ch.tip = ch.genesis :=
      hInv.zeroGen ch.tip.hashv ch.tip
        (hInv.htsMem ch.height ch.tip hInv.htip) h0
    rw [hz hch0, htg]
    rfl

/-- Witness for claim C6: the locator of the concrete height-2 chain. -/
theorem claim_C6_witness :
    ∃ l, hsk_chain_get_locator wch2 = some l ∧
      l.length ≤ 64 ∧
      l.head? = some wch2.tip.hashv ∧
      (63 ≤ wch2.tip.height → l.getLast? = some wch2.genesis.hashv) ∧
      (wch2.tip.height = 0 → l = [wch2.genesis.hashv]) :=
  claim_C6_locator Wc wch2 wch2_reachable

/-- The window loop computes the sum of the decoded targets of the
listed ancestors together with the cursor after the walk. -/
theorem windowSum_eq (m : HMap Header) :
    ∀ k f, windowSum m f k =
      (sumTargets (ancList m f k)).map (fun s => (s, ancOpt m f k)) := by
  intro k
  induction k with
  | zero =>
    intro f
    cases f <;> rfl
  | succ k ih =>
    intro f
    cases f with
    | none => rfl
    | some h =>
      show (match powToTarget h.bits with
            | none => none
            | some t =>
              match windowSum m (mget m h.prevBlock) k with
              | none => none
              | some (s, f2) => some (t + s, f2)) = _
      cases ht : powToTarget h.bits with
      | none =>
        show none = (sumTargets (h :: ancList m (mget m h.prevBlock) k)).map _
        show none = (match powToTarget h.bits, sumTargets (ancList m (mget m h.prevBlock) k) with
                     | some t, some s => some (t + s)
                     | _, _ => none).map _
        rw [ht]
        cases sumTargets (ancList m (mget m h.prevBlock) k) <;> rfl
      | some t =>
        rw [ih (mget m h.prevBlock)]
        show _ = (sumTargets (h :: ancList m (mget m h.prevBlock) k)).map _
        show _ = (match powToTarget h.bits, sumTargets (ancList m (mget m h.prevBlock) k) with
                  | some t2, some s => some (t2 + s)
                  | _, _ => none).map _
        rw [ht]
        cases hs : sumTargets (ancList m (mget m h.prevBlock) k) with
        | none => rfl
        | some s =>
          show some (t + s, ancOpt m (mget m h.prevBlock) k) = _
          rfl

/-- Claim C4 (amended): retarget needs the full window plus one more
ancestor — with prev non-nil it sums the decoded targets of up to W
ancestors starting at prev and returns the default bits when the walk
ends before a (W+1)-th header exists; otherwise N = (S / W) · actual / T
with diff measured from the MTP of that (W+1)-th header to the MTP of
prev, actual dampened and clamped, and the default bits when N exceeds
the limit. -/
theorem claim_C4_retarget (C : Consts) (m : HMap Header) (prev : Option Header) :
    hsk_chain_retarget C m prev = retargetAmended C m prev := by
  cases prev with
  | none => rfl
  | some p =>
    show (match windowSum m (some p) C.window with
          | none => none
          | some (sum, firsto) =>
            match firsto with
            | none => some C.bits
            | some first =>
              let avg := sum / C.window
              let start := hsk_chain_get_mtp m (some first)
              let endt := hsk_chain_get_mtp m (some p)
              let diff := endt - start
              let actual0 := (C.timespan : Int) + Int.tdiv (diff - (C.timespan : Int)) 4
              if actual0 < 0 then none
              else
                let a1 := if actual0 < (C.minActual : Int) then (C.minActual : Int) else actual0
                let a2 := if a1 > (C.maxActual : Int) then (C.maxActual : Int) else a1
                let n := avg * a2.toNat / C.timespan
                if n > C.limit then some C.bits
                else powToBits n) = _
    rw [windowSum_eq m C.window (some p)]
    cases hs : sumTargets (ancList m (some p) C.window) with
    | none =>
      show none = (match sumTargets (ancList m (some p) C.window) with
                   | none => none
                   | some sum => _) 
      rw [hs]
    | some sum =>
      show (match ancOpt m (some p) C.window with
            | none => some C.bits
            | some first => _) =
           (match sumTargets (ancList m (some p) C.window) with
            | none => none
            | some sum2 => _)
      rw [hs]

/-- Counterexample to claim C4 as worded: on a two-header chain with
exactly W = window ancestors the code returns the default bits, while
the claimed rule computes a retargeted value. -/
theorem claim_C4_counterexample :
    hsk_chain_retarget Cr cmap (some chB) ≠ retargetClaim Cr cmap (some chB) := by
  decide
